import Mathlib

/-!
# Verification of the Brackets incremental search engine

Shallow embedding of `src/search/BracketsSearchCursor.js`:
the document line index, the regex match indexer (two-phase scan,
group array of `(startOffset, endOffset)` pairs, binary search by
offset) and the search-cursor state machine.

Modelling conventions:
* The host regex engine is modelled by a function `r : ℕ → Option ℕ`
  giving, for every start offset `p`, the end offset of the match the
  engine produces at `p` (or `none`).  `regex.exec` with a `g` flag and
  mutable `lastIndex` is then "the leftmost match at or after
  `lastIndex`", which is `execFrom` below.  JavaScript guarantees
  `match.index ≥ lastIndex` and `lastIndex' = end ≥ match.index`;
  this is the `RegexWF` side condition.
* JavaScript strings are modelled as `List Char`; `.length` is list
  length (UTF-16 subtleties are out of scope, the spec's positions are
  abstract character counts).
* Loops are written as structurally recursive functions on an explicit
  fuel argument so that every definition is executable; the fuel is
  always sufficient (this is proved where a claim is about
  termination).
-/

namespace BracketsSearch

/-- A well-formed regex match function: every match produced at a
start offset `p ≤ n` (the document length) ends at `e` with
`p ≤ e ≤ n`.  JavaScript's `RegExp.exec` guarantees this shape. -/
def matchOK (n p : ℕ) : Option ℕ → Bool
  | none => true
  | some e => decide (p ≤ e ∧ e ≤ n)

/-- Well-formedness of a regex model over a document of length `n`. -/
def RegexWF (n : ℕ) (r : ℕ → Option ℕ) : Prop :=
  ∀ p, p < n + 1 → matchOK n p (r p) = true

instance (n : ℕ) (r : ℕ → Option ℕ) : Decidable (RegexWF n r) :=
  Nat.decidableBallLT (n + 1) _

theorem RegexWF.bounds {n : ℕ} {r : ℕ → Option ℕ} (h : RegexWF n r)
    {p e : ℕ} (hp : p ≤ n) (he : r p = some e) : p ≤ e ∧ e ≤ n := by
  have := h p (by omega)
  rw [he] at this
  simpa [matchOK] using this

/-- `regex.exec(docText)` with `regex.lastIndex = i`: the leftmost
match whose start offset is at least `i` (start offsets range over
`[i, n]`; a zero-width match at the very end of the text is legal).
Returns the pair `(match.index, regex.lastIndex)` after the call.
`execFromAux r i k` probes offsets `i, i+1, …, i+k-1`. -/
def execFromAux (r : ℕ → Option ℕ) : ℕ → ℕ → Option (ℕ × ℕ)
  | _, 0 => none
  | i, k + 1 =>
    match r i with
    | some e => some (i, e)
    | none => execFromAux r (i + 1) k

def execFrom (r : ℕ → Option ℕ) (n i : ℕ) : Option (ℕ × ℕ) :=
  execFromAux r i (n + 1 - i)

/-- The `lastIndex` the scan loop continues from after storing a match:
the body of `_searchAndAddResultsToArray` (and of
`_scanDocumentUsingRegularExpression`) advances `lastIndex` by one when
the match was zero-width (`matchArray.index === query.lastIndex`). -/
def bumpEnd (z : ℕ × ℕ) : ℕ :=
  if z.1 = z.2 then z.2 + 1 else z.2

/-- The `while ((matchArray = query.exec(docText)) !== null)` loop of
`_searchAndAddResultsToArray`, storing `(matchArray.index,
query.lastIndex)` pairs.  `limit` is the remaining number of matches
allowed (the source compares the flat value index against
`matchCountLimit * groupSize`, i.e. it bounds the number of stored
pairs); the loop breaks *after* storing a match once the limit is
reached or once `query.lastIndex` exceeds `sei` (`searchEndIndex`).
Fuel-driven; fuel `n + 1` is always sufficient (proved below). -/
def scanLoopFuel (r : ℕ → Option ℕ) (n sei : ℕ) : ℕ → ℕ → ℕ → List (ℕ × ℕ)
  | _, _, 0 => []
  | limit, i, fuel + 1 =>
    match execFrom r n i with
    | none => []
    | some (s, e) =>
      if limit ≤ 1 ∨ sei < bumpEnd (s, e) then [(s, e)]
      else (s, e) :: scanLoopFuel r n sei (limit - 1) (bumpEnd (s, e)) fuel

/-- `_searchAndAddResultsToArray(query, docText, groupArray,
matchCountLimit, searchEndIndex)` with `query.lastIndex = i` on entry.
The source applies defaults `matchCountLimit = matchCountLimit ||
10000000` and `searchEndIndex = searchEndIndex || docText.length`
(`0`/`undefined` are falsy). -/
def searchAndAddResultsToArray (r : ℕ → Option ℕ) (n limit0 sei0 i : ℕ) :
    List (ℕ × ℕ) :=
  scanLoopFuel r n (if sei0 = 0 then n else sei0)
    (if limit0 = 0 then 10000000 else limit0) i (n + 1)

/-- `_removeIfDuplicateResultOnEdge(firstSearchResults,
secondSearchResults)`: if the first pair of `first` equals the last
pair of `second`, the duplicate is popped off `second`.  Empty tables
are left untouched.  Returns the (possibly popped) `second`. -/
def removeIfDuplicateResultOnEdge (first second : List (ℕ × ℕ)) :
    List (ℕ × ℕ) :=
  match first.head?, second.getLast? with
  | some f, some l => if f = l then second.dropLast else second
  | _, _ => second

/-- `_createSearchResults(docText, query, startIndex)` inside
`_createRegexIndexer`: phase one scans from `startIndex` to the end;
if `startIndex > 0` and fewer than `maxResults` matches were found,
phase two scans from offset `0` capped at `startIndex`, the duplicate
on the join edge is removed, and the final table is
`secondary ++ primary`.  The indexer's default
`maxResults = maxResults || 10000000` is applied identically inside
`searchAndAddResultsToArray`, so `maxResults0` is passed through raw
and only the `resultCount < maxResults` comparison spells the default
out. -/
def createSearchResults (r : ℕ → Option ℕ) (n maxResults0 s : ℕ) :
    List (ℕ × ℕ) :=
  if 0 < s ∧ (searchAndAddResultsToArray r n maxResults0 0 s).length <
      (if maxResults0 = 0 then 10000000 else maxResults0) then
    removeIfDuplicateResultOnEdge
      (searchAndAddResultsToArray r n maxResults0 0 s)
      (searchAndAddResultsToArray r n maxResults0 s 0) ++
    searchAndAddResultsToArray r n maxResults0 0 s
  else searchAndAddResultsToArray r n maxResults0 0 s

/-! ## Document line index -/

/-- A CodeMirror position: zero-based line, zero-based column. -/
structure Pos where
  line : ℕ
  ch : ℕ
deriving DecidableEq, Repr

/-- Accumulator loop of `_createLineCharacterCountIndex`:
`totalCharacterCount += lines[lineNumber].length + lineSeparatorLength;
lineCharacterCountIndex[lineNumber] = totalCharacterCount;`. -/
def lineIndexGo (sepLen : ℕ) : List (List Char) → ℕ → List ℕ
  | [], _ => []
  | l :: rest, total =>
    (total + l.length + sepLen) :: lineIndexGo sepLen rest (total + l.length + sepLen)

/-- `_createLineCharacterCountIndex(text, lineSeparator)`.  The source
receives the document text and computes `text.split(lineSeparator)`;
here the split result `lines` is the argument and the document text is
recovered as `List.intercalate sep lines` (for a non-degenerate
separator, `join` by the separator inverts `split`). -/
def _createLineCharacterCountIndex (lines : List (List Char)) (sep : List Char) :
    List ℕ :=
  lineIndexGo sep.length lines 0

/-- Character offset of the start of line `i`:
`Σ_{j<i} (lines[j].length + sep.length)`. -/
def lineStartOffset (lines : List (List Char)) (sepLen i : ℕ) : ℕ :=
  (((lines.take i).map List.length).sum) + i * sepLen

/-- `_indexFromPos(lineCharacterCountIndexArray, pos)`:
`(pos.line > 0 ? L[pos.line - 1] : 0) + pos.ch`.  In-range list access
(`getD … 0`); the source never reads out of range on valid positions. -/
def _indexFromPos (L : List ℕ) (pos : Pos) : ℕ :=
  (if 0 < pos.line then L.getD (pos.line - 1) 0 else 0) + pos.ch

/-- Linear-search loop of `_lineFromIndex`, scanning the `k` lines
`ln, ln+1, …` for the first whose cumulative count exceeds `idx`. -/
def lineFromIndexLoop (L : List ℕ) (idx : ℕ) : ℕ → ℕ → Option ℕ
  | _, 0 => none
  | ln, k + 1 =>
    if idx < L.getD ln 0 then some ln else lineFromIndexLoop L idx (ln + 1) k

/-- `_lineFromIndex(lineCharacterCountIndexArray, startSearchingWithLine,
indexWithinDoc)`.  The JS loop falls off the end and returns
`undefined` when no line qualifies; modelled as `none`. -/
def _lineFromIndex (L : List ℕ) (startSearchingWithLine idx : ℕ) : Option ℕ :=
  lineFromIndexLoop L idx startSearchingWithLine (L.length - startSearchingWithLine)

/-- `_createPosFromIndex(lineCharacterCountIndexArray,
startSearchingWithLine, indexWithinDoc)`.  `none` corresponds to the
source's out-of-range garbage position (`{line: undefined, ch: NaN}`). -/
def _createPosFromIndex (L : List ℕ) (startSearchingWithLine idx : ℕ) :
    Option Pos :=
  (_lineFromIndex L startSearchingWithLine idx).map fun ln =>
    { line := ln, ch := idx - (if 0 < ln then L.getD (ln - 1) 0 else 0) }

/-- `_createSearchResult(docLineIndex, indexStart, indexEnd)` with the
default `startLine = 0`: `{from: …, to: …}` built from the two offsets,
the `to` conversion hinted with `fromPos.line`. -/
def _createSearchResult (L : List ℕ) (indexStart indexEnd : ℕ) :
    Option (Pos × Pos) :=
  match _createPosFromIndex L 0 indexStart with
  | none => none
  | some fromPos =>
    (_createPosFromIndex L fromPos.line indexEnd).map fun toPos => (fromPos, toPos)

/-! ## Binary search by offset (`_findResultIndexNearPos`) -/

/-- `_compareMatchResultToPos(matchIndex, posIndex)`:
`0` on equality, `-1` when below, `1` when above. -/
def _compareMatchResultToPos (matchIndex posIndex : ℕ) : ℤ :=
  if matchIndex = posIndex then 0 else if matchIndex < posIndex then -1 else 1

/-- `regexIndexer.getMatchIndexStart(matchNumber)`: the first value of
group `matchNumber` of the `(start, end)` table. -/
def getMatchIndexStart (pairs : List (ℕ × ℕ)) (matchNumber : ℕ) : ℕ :=
  (pairs.getD matchNumber (0, 0)).1

/-- The bisection loop of `_findResultIndexNearPos`.  State:
`lowerBound`, `upperBound` (integers: `upperBound` reaches `-1`),
and the surviving `searchIndex`/`compare` variables consulted after
the loop.  `Math.floor((upperBound + lowerBound) / 2)` is computed as
natural division: on every reachable state `lowerBound ≥ 0`, so the
operands are non-negative.  `.inr k` is an exact hit returning `k`
from inside the loop; `.inl (searchIndex, compare)` is loop exit.
Fuel `pairs.length + 1` is sufficient: each iteration shrinks
`upperBound - lowerBound`. -/
def bsearchLoop (pairs : List (ℕ × ℕ)) (pos : ℕ) :
    ℕ → ℤ → ℤ → ℤ → ℤ → (ℤ × ℤ) ⊕ ℕ
  | 0, _, _, si, comp => .inl (si, comp)
  | fuel + 1, lb, ub, si, comp =>
    if lb ≤ ub then
      if _compareMatchResultToPos
          (getMatchIndexStart pairs ((ub + lb).toNat / 2)) pos = 0 then
        .inr ((ub + lb).toNat / 2)
      else if _compareMatchResultToPos
          (getMatchIndexStart pairs ((ub + lb).toNat / 2)) pos = -1 then
        bsearchLoop pairs pos fuel ((((ub + lb).toNat / 2 : ℕ) : ℤ) + 1) ub
          (((ub + lb).toNat / 2 : ℕ) : ℤ) (-1)
      else
        bsearchLoop pairs pos fuel lb ((((ub + lb).toNat / 2 : ℕ) : ℤ) - 1)
          (((ub + lb).toNat / 2 : ℕ) : ℤ) 1
    else .inl (si, comp)

/-- The two sequential adjustments of `searchIndex` after the loop:
`if ((compare === -1) && (!reverse)) searchIndex += 1;` then
`if ((compare === 1) && (reverse)) searchIndex -= 1;`. -/
def adjustSearchIndex (reverse : Bool) (si comp : ℤ) : ℤ :=
  if comp = 1 ∧ reverse = true then
    (if comp = -1 ∧ reverse = false then si + 1 else si) - 1
  else if comp = -1 ∧ reverse = false then si + 1 else si

/-- `_findResultIndexNearPos(regexIndexer, pos, reverse, fnCompare)`
with `fnCompare = _compareMatchResultToPos`.  Returns `none` for the
source's `false` (and for the `undefined` produced on an empty table,
which the source also treats as "no result": both are falsy).  On a
non-empty table the loop runs at least once, so the initial
`searchIndex`/`compare` values (JS `undefined`, here `0`) are never
consulted. -/
def _findResultIndexNearPos (pairs : List (ℕ × ℕ)) (pos : ℕ) (reverse : Bool) :
    Option ℕ :=
  if pairs.isEmpty then none
  else
    match bsearchLoop pairs pos (pairs.length + 1) 0 ((pairs.length : ℤ) - 1) 0 0 with
    | .inr k => some k
    | .inl (si, comp) =>
      if adjustSearchIndex reverse si comp < 0 ∨
          (pairs.length : ℤ) ≤ adjustSearchIndex reverse si comp then none
      else some (adjustSearchIndex reverse si comp).toNat

/-! ## The search cursor -/

/-- A compiled regular expression as produced by
`_convertToRegularExpression`: the source pattern plus the flag choice
(`"igm"` when `ignoreCase`, else `"gm"`). -/
structure CompiledRegex where
  source : String
  ignoreCase : Bool
deriving DecidableEq, Repr

/-- Modelled from the spec: `StringUtils.regexEscape`
(`utils/StringUtils` is not under `src/`).  The spec says string
queries are escaped before being wrapped in a regex; escaping is
injective and the cursor only ever compares sources for equality, so
it is modelled as the identity on the pattern text. -/
def regexEscape (s : String) : String := s

/-- `_convertToRegularExpression(stringOrRegex, ignoreCase)` for a
string query: `new RegExp(StringUtils.regexEscape(stringOrRegex),
ignoreCase ? "igm" : "gm")`. -/
def _convertToRegularExpression (stringOrRegex : String) (ignoreCase : Bool) :
    CompiledRegex :=
  { source := regexEscape stringOrRegex, ignoreCase := ignoreCase }

/-- Search-cursor state.  The regex indexer's group array holds the
match table `table` and a current-group cursor; the source stores the
flat value index `_currentGroupIndex` with sentinel `-groupSize = -2`,
here represented as the group *number* `cgn = _currentGroupIndex / 2`
with sentinel `-1` (group size is always 2, so the two are in exact
correspondence).  `L` is the cached document line index. -/
structure Cursor where
  table : List (ℕ × ℕ)
  cgn : ℤ
  L : List ℕ
  atOccurrence : Bool
  ignoreCase : Bool
  doc : ℕ
  query : Option CompiledRegex
  currentPosition : Option (Pos × Pos)
  maxResults : ℕ
  resultsCurrent : Bool
deriving DecidableEq, Repr

/-- `regexIndexer.getCurrentMatch()`: a range when the group cursor is
past the sentinel (`_currentGroupIndex > -1`, i.e. `cgn ≥ 0`),
`undefined` (`none`) otherwise. -/
def getCurrentMatch (c : Cursor) : Option (Pos × Pos) :=
  if -1 < c.cgn then
    let z := c.table.getD c.cgn.toNat (0, 0)
    _createSearchResult c.L z.1 z.2
  else none

/-- `nextMatch()`: `nextGroupIndex()` advances the flat index by the
group size while `_currentGroupIndex < array.length - groupSize`
(i.e. `cgn < table.length - 1`), else resets to the sentinel and
yields `false`.  Returns the updated group number and the range. -/
def nextMatch (c : Cursor) : ℤ × Option (Pos × Pos) :=
  if c.cgn < (c.table.length : ℤ) - 1 then
    let k := c.cgn + 1
    let z := c.table.getD k.toNat (0, 0)
    (k, _createSearchResult c.L z.1 z.2)
  else (-2 / 2, none)

/-- `prevMatch()`: `prevGroupIndex()` steps back while
`_currentGroupIndex - groupSize > -1` (i.e. `cgn ≥ 1`), else resets to
the sentinel and yields `false`. -/
def prevMatch (c : Cursor) : ℤ × Option (Pos × Pos) :=
  if 1 ≤ c.cgn then
    let k := c.cgn - 1
    let z := c.table.getD k.toNat (0, 0)
    (k, _createSearchResult c.L z.1 z.2)
  else (-2 / 2, none)

/-- `_findNext(cursor)`: step the indexer; on `false` clear
`atOccurrence` and `currentPosition`. -/
def _findNext (c : Cursor) : Cursor × Option (Pos × Pos) :=
  let (k, m) := nextMatch c
  match m with
  | none => ({ c with cgn := k, atOccurrence := false, currentPosition := none }, none)
  | some r => ({ c with cgn := k }, some r)

/-- `_findPrevious(cursor)`. -/
def _findPrevious (c : Cursor) : Cursor × Option (Pos × Pos) :=
  let (k, m) := prevMatch c
  match m with
  | none => ({ c with cgn := k, atOccurrence := false, currentPosition := none }, none)
  | some r => ({ c with cgn := k }, some r)

/-- `_startingPositionForFind(cursor, reverse)`: `currentPosition` when
set, else the document boundary `{line: doc.lineCount(), ch: 0}` in
reverse / `{line: 0, ch: 0}` forward (`doc.lineCount()` is the number
of lines, i.e. `c.L.length`). -/
def _startingPositionForFind (c : Cursor) (reverse : Bool) : Pos × Pos :=
  match c.currentPosition with
  | some cp => cp
  | none =>
    let position : Pos := if reverse then ⟨c.L.length, 0⟩ else ⟨0, 0⟩
    (position, position)

/-- JavaScript truthiness of `matchIndex` in `find`:
`false`/`undefined` (`none`) and the number `0` are falsy. -/
def jsTruthyIndex (o : Option ℕ) : Bool :=
  match o with
  | none => false
  | some k => decide (k ≠ 0)

/-- `find(reverse)` of the search cursor, assuming results are current
(`_updateResultsIfNeeded` is the identity here: claims about `find`
concern a cursor whose document and results are fresh).  Returns the
updated cursor and the found range (`none` for the source's
`false`/`undefined`). -/
def cursorFind (c0 : Cursor) (reverse : Bool) : Cursor × Option (Pos × Pos) :=
  let step1 : Cursor × Option (Pos × Pos) :=
    match getCurrentMatch c0 with
    | some _ => (c0, none)
    | none =>
      let cp := _startingPositionForFind c0 reverse
      let cA := { c0 with currentPosition := some cp }
      let matchIndex :=
        _findResultIndexNearPos cA.table (_indexFromPos cA.L cp.1) reverse
      if jsTruthyIndex matchIndex then
        let cB := { cA with cgn := ((matchIndex.getD 0 : ℕ) : ℤ) }
        (cB, getCurrentMatch cB)
      else (cA, none)
  let step2 : Cursor × Option (Pos × Pos) :=
    match step1.2 with
    | some m => (step1.1, some m)
    | none => if reverse then _findPrevious step1.1 else _findNext step1.1
  match step2.2 with
  | some m =>
    ({ step2.1 with currentPosition := some m, atOccurrence := true }, some m)
  | none => (step2.1, none)

/-- `_setQuery(cursor, query)`: recompile with the cursor's current
`ignoreCase`; invalidate `resultsCurrent` only when the *source
pattern* changed (the flags are not compared). -/
def _setQuery (c : Cursor) (query : String) : Cursor :=
  let newRegexQuery := _convertToRegularExpression query c.ignoreCase
  let c :=
    match c.query with
    | some old =>
      if old.source ≠ newRegexQuery.source then { c with resultsCurrent := false }
      else c
    | none => c
  { c with query := some newRegexQuery }

/-- `_setPos(cursor, pos)`: `currentPosition = {from: pos, to: pos}`. -/
def _setPos (c : Cursor) (pos : Pos) : Cursor :=
  { c with currentPosition := some (pos, pos) }

/-- The argument object of `setSearchDocumentAndQuery`.  Each guard in
the source is a JS truthiness test, so a falsy value behaves like an
absent property: `ignoreCase` is a plain boolean (`false` falsy),
`maxResults` a number (`0` falsy), `searchQuery` a string (`""`
falsy), `document` and `position` are objects (always truthy when
present). -/
structure SearchProperties where
  document : Option ℕ
  searchQuery : Option String
  position : Option Pos
  ignoreCase : Bool
  maxResults : ℕ
deriving DecidableEq, Repr

/-- `setSearchDocumentAndQuery(properties)`. -/
def setSearchDocumentAndQuery (c : Cursor) (properties : SearchProperties) :
    Cursor :=
  let c := { c with atOccurrence := false }
  let c := if properties.ignoreCase then { c with ignoreCase := properties.ignoreCase } else c
  let c := match properties.document with
    | some d => { c with doc := d }
    | none => c
  let c := match properties.searchQuery with
    | some q => if q = "" then c else _setQuery c q
    | none => c
  let c := match properties.position with
    | some pos => _setPos c pos
    | none => c
  if properties.maxResults ≠ 0 then { c with maxResults := properties.maxResults } else c

/-! ## Concrete instances used by the example-based claims -/

/-- The regex `".*"` (flags `gm`) over the single-line document
`"xxxxx"` (length 5): at every offset `p ≤ 5` the engine matches
greedily to the end of the line, producing the match `(p, 5)` —
zero-width exactly at `p = 5`. -/
def dotStarOnXs : ℕ → Option ℕ :=
  fun p => if p ≤ 5 then some 5 else none

/-- Line index of the document `"xxxxx"` with separator `"\n"`. -/
def xsLineIndex : List ℕ :=
  _createLineCharacterCountIndex [['x', 'x', 'x', 'x', 'x']] ['\n']

/-- The regex `"aa"` over the document `"aaa"` (length 3): matches of
width 2 start at offsets 0 and 1 (overlapping). -/
def aaOnAaa : ℕ → Option ℕ :=
  fun p => if p + 2 ≤ 3 then some (p + 2) else none

/-- A non-overlapping concrete regex model over a document of length
3: matches `(0,1)` and `(2,3)`. -/
def disjointPairs : ℕ → Option ℕ :=
  fun p => if p = 0 then some 1 else if p = 2 then some 3 else none

/-- Strict ascending order of the start offsets of a match table —
the documented invariant of the `(start, end)` group array. -/
def TableSorted (pairs : List (ℕ × ℕ)) : Prop :=
  ∀ k, k < pairs.length → ∀ j, j < k →
    getMatchIndexStart pairs j < getMatchIndexStart pairs k

instance (pairs : List (ℕ × ℕ)) : Decidable (TableSorted pairs) :=
  Nat.decidableBallLT _ _

/-- Cursor over the document `"ab\ncd"` (line index `[3, 6]`) whose
match table holds the single match `(0, 1)`, with no current match
selected and no seed position — the state reached right after a fresh
scan. -/
def exampleCursorC1 : Cursor :=
  { table := [(0, 1)], cgn := -2 / 2, L := [3, 6], atOccurrence := false,
    ignoreCase := false, doc := 0, query := none, currentPosition := none,
    maxResults := 0, resultsCurrent := true }

/-- Cursor holding a compiled case-sensitive query `"abc"` with
current results. -/
def exampleCursorC6 : Cursor :=
  { table := [], cgn := -2 / 2, L := [], atOccurrence := true,
    ignoreCase := false, doc := 0, query := some ⟨"abc", false⟩,
    currentPosition := none, maxResults := 0, resultsCurrent := true }

/-- Properties re-setting the same query `"abc"` with `ignoreCase`
flipped to `true`. -/
def exampleigcProps : SearchProperties :=
  { document := none, searchQuery := some "abc", position := none,
    ignoreCase := true, maxResults := 0 }

/-- Properties object with every field absent or falsy. -/
def quietProps : SearchProperties :=
  { document := none, searchQuery := none, position := none,
    ignoreCase := false, maxResults := 0 }

/-! ## Reference notions for the scan claims -/

/-- All matches of the regex model in document order: the pairs
`(p, e)` with `r p = some e`, listed by ascending start offset
`p ∈ [i, n]`. -/
def matchesFrom (r : ℕ → Option ℕ) (n i : ℕ) : List (ℕ × ℕ) :=
  (List.range' i (n + 1 - i)).filterMap fun p => (r p).map fun e => (p, e)

/-- The prefix of a list up to and including the first element
satisfying `p` (the whole list when none does). -/
def takeThrough (p : α → Bool) : List α → List α
  | [] => []
  | x :: xs => if p x then [x] else x :: takeThrough p xs

/-- Compatibility of two matches for `NonOverlap`: a match starting at
`p` and ending at `e` does not overlap a later match start `q`. -/
def pairOK (q : ℕ) : Option ℕ → Option ℕ → Bool
  | some e, some _ => decide (e ≤ q)
  | _, _ => true

/-- Non-overlapping regex model: any two match starts `p < q` satisfy
`end(p) ≤ q` — the greedy `exec` scan then enumerates every match.
(JavaScript regexes can violate this, e.g. `/aa/` on `"aaa"`.) -/
def NonOverlap (n : ℕ) (r : ℕ → Option ℕ) : Prop :=
  ∀ p, p < n + 1 → ∀ q, q < n + 1 → p < q → pairOK q (r p) (r q) = true

instance (n : ℕ) (r : ℕ → Option ℕ) : Decidable (NonOverlap n r) :=
  Nat.decidableBallLT _ _

/-! ## Helper lemmas: line index -/

theorem lineIndexGo_length (sepLen : ℕ) (lines : List (List Char)) (total : ℕ) :
    (lineIndexGo sepLen lines total).length = lines.length := by
  induction lines generalizing total with
  | nil => rfl
  | cons l rest ih => simp [lineIndexGo, ih]

theorem lineIndexGo_getElem? (sepLen : ℕ) (lines : List (List Char))
    (total i : ℕ) (h : i < lines.length) :
    (lineIndexGo sepLen lines total)[i]? =
      some (total + lineStartOffset lines sepLen (i + 1)) := by
  induction lines generalizing total i with
  | nil => simp at h
  | cons l rest ih =>
    cases i with
    | zero =>
      simp only [lineIndexGo, List.getElem?_cons_zero, lineStartOffset,
        List.take_succ_cons, List.take_zero, List.map_cons, List.map_nil,
        List.sum_cons, List.sum_nil, Option.some.injEq]
      omega
    | succ i =>
      have hi : i < rest.length := by simpa using h
      simp only [lineIndexGo, List.getElem?_cons_succ]
      rw [ih (total + l.length + sepLen) i hi]
      simp only [lineStartOffset, List.take_succ_cons, List.map_cons,
        List.sum_cons, Option.some.injEq]
      ring

theorem createLineCharacterCountIndex_getElem? (lines : List (List Char))
    (sep : List Char) (i : ℕ) (h : i < lines.length) :
    (_createLineCharacterCountIndex lines sep)[i]? =
      some (lineStartOffset lines sep.length (i + 1)) := by
  have := lineIndexGo_getElem? sep.length lines 0 i h
  simpa [_createLineCharacterCountIndex] using this

theorem createLineCharacterCountIndex_length (lines : List (List Char))
    (sep : List Char) :
    (_createLineCharacterCountIndex lines sep).length = lines.length :=
  lineIndexGo_length ..

theorem length_intercalate (sep : List Char) (lines : List (List Char)) :
    (List.intercalate sep lines).length =
      (lines.map List.length).sum + (lines.length - 1) * sep.length := by
  induction lines with
  | nil => simp [List.intercalate]
  | cons a t ih =>
    cases t with
    | nil => simp [List.intercalate]
    | cons b t' =>
      have h2 : List.intercalate sep (a :: b :: t') =
          a ++ sep ++ List.intercalate sep (b :: t') := by
        simp [List.intercalate, List.intersperse_cons_cons]
      rw [h2]
      simp only [List.length_append, ih, List.map_cons, List.sum_cons,
        List.length_cons]
      have h3 : t'.length + 1 + 1 - 1 = t'.length + 1 := by omega
      have h4 : t'.length + 1 - 1 = t'.length := by omega
      rw [h3, h4]
      ring

theorem lineStartOffset_full (lines : List (List Char)) (sepLen : ℕ) :
    lineStartOffset lines sepLen lines.length =
      (lines.map List.length).sum + lines.length * sepLen := by
  simp [lineStartOffset]

theorem createLineCharacterCountIndex_getLast (lines : List (List Char))
    (sep : List Char) (h : lines ≠ []) :
    (_createLineCharacterCountIndex lines sep).getLast? =
      some ((List.intercalate sep lines).length + sep.length) := by
  obtain ⟨m, hm⟩ : ∃ m, lines.length = m + 1 :=
    ⟨lines.length - 1, by cases lines with | nil => simp at h | cons a t => simp⟩
  rw [List.getLast?_eq_getElem?, createLineCharacterCountIndex_length, hm]
  have hlt : m + 1 - 1 < lines.length := by omega
  rw [createLineCharacterCountIndex_getElem? lines sep _ hlt]
  have h1 : m + 1 - 1 + 1 = lines.length := by omega
  rw [h1, lineStartOffset_full, length_intercalate, hm]
  simp only [Nat.add_sub_cancel, Option.some.injEq]
  ring

/-! ## C3 theorems -/

/-- C3 counterexample: for the document `"a\nb"` split by `"\n"`
(lines `["a", "b"]`), the built index is `[2, 4]`: its last entry is
`4`, but the document text `"a\nb"` has length `3` — the loop adds the
separator length for every line including the last, so
`L[lineCount-1]` overshoots the document length by `sep.length`. -/
theorem lineIndex_last_ne_doc_length :
    (_createLineCharacterCountIndex [['a'], ['b']] ['\x0a']).getLast? ≠
      some (List.intercalate ['\x0a'] [['a'], ['b']]).length := by
  decide

/-- C3 (amended): for every non-empty line list and separator, the
built line index satisfies `L[lineCount-1] = document length +
sep.length` (the loop counts a trailing separator after the last line,
which is exactly what `getDocCharacterCount` reports), and for every
`i > 0` the start offset of line `i` equals `L[i-1]`. -/
theorem lineIndex_last_and_starts (lines : List (List Char)) (sep : List Char)
    (h : lines ≠ []) :
    (_createLineCharacterCountIndex lines sep).getLast? =
      some ((List.intercalate sep lines).length + sep.length) ∧
    ∀ i, 0 < i → i < lines.length →
      (_createLineCharacterCountIndex lines sep)[i - 1]? =
        some (lineStartOffset lines sep.length i) := by
  refine ⟨createLineCharacterCountIndex_getLast lines sep h, fun i h0 hlen => ?_⟩
  have hlt : i - 1 < lines.length := by omega
  rw [createLineCharacterCountIndex_getElem? lines sep _ hlt]
  have h1 : i - 1 + 1 = i := by omega
  rw [h1]

/-- Witness for C3 (amended) on the document `"a\nb"`. -/
theorem lineIndex_last_and_starts_witness :
    ([['a'], ['b']] : List (List Char)) ≠ [] ∧
    ((_createLineCharacterCountIndex [['a'], ['b']] ['\x0a']).getLast? =
      some ((List.intercalate ['\x0a'] [['a'], ['b']]).length + 1) ∧
    ∀ i, 0 < i → i < ([['a'], ['b']] : List (List Char)).length →
      (_createLineCharacterCountIndex [['a'], ['b']] ['\x0a'])[i - 1]? =
        some (lineStartOffset [['a'], ['b']] 1 i)) :=
  ⟨by decide, lineIndex_last_and_starts [['a'], ['b']] ['\x0a'] (by decide)⟩

/-! ## C9 theorems -/

/-- C9 counterexample: scanning `"xxxxx"` with `".*"` from offset 0
stores 2 matches, not 6 — after the full-line match `(0,5)`,
`lastIndex = 5` yields a single zero-width match `(5,5)`, the
zero-width bump moves `lastIndex` to `6 > 5` and the loop breaks. -/
theorem scan_dotstar_xxxxx_count_ne_six :
    (createSearchResults dotStarOnXs 5 0 0).length ≠ 6 := by
  decide

/-- C9 (amended): scanning the document `"xxxxx"` with the regex
`".*"` (case-sensitive, scan starting at offset 0) terminates and
stores exactly 2 matches: the full-line match from `{line 0, ch 0}` to
`{line 0, ch 5}` followed by 1 zero-width match at `{line 0, ch 5}`. -/
theorem scan_dotstar_xxxxx_matches :
    createSearchResults dotStarOnXs 5 0 0 = [(0, 5), (5, 5)] ∧
    _createSearchResult xsLineIndex 0 5 =
      some (⟨0, 0⟩, ⟨0, 5⟩) ∧
    _createSearchResult xsLineIndex 5 5 =
      some (⟨0, 5⟩, ⟨0, 5⟩) := by
  decide

/-! ## Helper lemmas: offset ↔ position conversion -/

theorem lineFromIndexLoop_eq_some {L : List ℕ} {idx t : ℕ} :
    ∀ k ln, ln ≤ t → t < ln + k →
      (∀ u, ln ≤ u → u < t → ¬ idx < L.getD u 0) → idx < L.getD t 0 →
      lineFromIndexLoop L idx ln k = some t := by
  intro k
  induction k with
  | zero => intro ln h1 h2; omega
  | succ k ih =>
    intro ln h1 h2 hlow ht
    rw [lineFromIndexLoop]
    rcases Nat.eq_or_lt_of_le h1 with rfl | hlt
    · rw [if_pos ht]
    · rw [if_neg (hlow ln (le_refl _) hlt)]
      exact ih (ln + 1) (by omega) (by omega) (fun u hu1 hu2 => hlow u (by omega) hu2) ht

theorem lineStartOffset_succ (lines : List (List Char)) (sepLen i : ℕ)
    (h : i < lines.length) :
    lineStartOffset lines sepLen (i + 1) =
      lineStartOffset lines sepLen i + (lines.getD i []).length + sepLen := by
  simp only [lineStartOffset, List.take_succ, List.map_append, List.sum_append]
  rw [List.getElem?_eq_getElem h]
  simp only [Option.toList_some, List.map_cons, List.map_nil, List.sum_cons,
    List.sum_nil, List.getD_eq_getElem _ _ h]
  ring

theorem lineStartOffset_mono (lines : List (List Char)) (sepLen : ℕ) :
    ∀ i j, i ≤ j → j ≤ lines.length →
      lineStartOffset lines sepLen i ≤ lineStartOffset lines sepLen j := by
  intro i j hij hj
  induction j with
  | zero =>
    have h0 : i = 0 := by omega
    rw [h0]
  | succ j ih =>
    rcases Nat.eq_or_lt_of_le hij with rfl | hlt
    · exact le_refl _
    · calc lineStartOffset lines sepLen i ≤ lineStartOffset lines sepLen j :=
            ih (by omega) (by omega)
        _ ≤ lineStartOffset lines sepLen (j + 1) := by
            rw [lineStartOffset_succ lines sepLen j (by omega)]
            omega

theorem lineIndex_getD (lines : List (List Char)) (sep : List Char) (i : ℕ)
    (h : i < lines.length) :
    (_createLineCharacterCountIndex lines sep).getD i 0 =
      lineStartOffset lines sep.length (i + 1) := by
  rw [List.getD_eq_getD_get?, List.get?_eq_getElem?,
    createLineCharacterCountIndex_getElem? lines sep i h]
  rfl

/-! ## C8 theorem -/

/-- C8: for every line index built from a document (with a non-empty
line separator) and every valid position `pos` — `pos.line` a line of
the document and `pos.ch` within that line's pre-separator text —
converting `pos` to a flat offset with `_indexFromPos` and back with
`_createPosFromIndex` starting the hinted linear search at line 0
returns exactly `pos`. -/
theorem posFromIndex_indexFromPos_roundtrip (lines : List (List Char))
    (sep : List Char) (pos : Pos) (hsep : 1 ≤ sep.length)
    (hline : pos.line < lines.length)
    (hch : pos.ch ≤ (lines.getD pos.line []).length) :
    _createPosFromIndex (_createLineCharacterCountIndex lines sep) 0
      (_indexFromPos (_createLineCharacterCountIndex lines sep) pos) =
      some pos := by
  obtain ⟨pl, pc⟩ := pos
  simp only at hline hch
  set L := _createLineCharacterCountIndex lines sep with hL
  have hlen : L.length = lines.length :=
    createLineCharacterCountIndex_length lines sep
  have hS0 : lineStartOffset lines sep.length 0 = 0 := by
    simp [lineStartOffset]
  have hidx : _indexFromPos L ⟨pl, pc⟩ =
      lineStartOffset lines sep.length pl + pc := by
    unfold _indexFromPos
    simp only
    rcases Nat.eq_zero_or_pos pl with rfl | h0
    · rw [if_neg (by omega), hS0]
    · rw [if_pos h0, hL, lineIndex_getD lines sep _ (by omega)]
      have h1 : pl - 1 + 1 = pl := by omega
      rw [h1]
  have hfind : _lineFromIndex L 0 (lineStartOffset lines sep.length pl + pc) =
      some pl := by
    unfold _lineFromIndex
    rw [Nat.sub_zero, hlen]
    refine lineFromIndexLoop_eq_some lines.length 0 (by omega) (by omega)
      (fun u hu1 hu2 => ?_) ?_
    · rw [hL, lineIndex_getD lines sep u (by omega)]
      have := lineStartOffset_mono lines sep.length (u + 1) pl
        (by omega) (by omega)
      omega
    · rw [hL, lineIndex_getD lines sep pl hline,
        lineStartOffset_succ lines sep.length pl hline]
      omega
  unfold _createPosFromIndex
  rw [hidx, hfind]
  simp only [Option.map_some']
  rcases Nat.eq_zero_or_pos pl with rfl | h0
  · rw [if_neg (by omega)]
    simp [hS0]
  · rw [if_pos h0, hL, lineIndex_getD lines sep _ (by omega)]
    have h1 : pl - 1 + 1 = pl := by omega
    rw [h1]
    have h2 : lineStartOffset lines sep.length pl + pc -
        lineStartOffset lines sep.length pl = pc := by omega
    rw [h2]

/-- Witness for C8: document `"ab\ncd"`, position `{line 1, ch 1}`. -/
theorem posFromIndex_indexFromPos_roundtrip_witness :
    1 ≤ (['\x0a'] : List Char).length ∧
    (1 : ℕ) < ([['a', 'b'], ['c', 'd']] : List (List Char)).length ∧
    (1 : ℕ) ≤ (([['a', 'b'], ['c', 'd']] : List (List Char)).getD 1 []).length ∧
    _createPosFromIndex
      (_createLineCharacterCountIndex [['a', 'b'], ['c', 'd']] ['\x0a']) 0
      (_indexFromPos
        (_createLineCharacterCountIndex [['a', 'b'], ['c', 'd']] ['\x0a'])
        ⟨1, 1⟩) = some ⟨1, 1⟩ :=
  ⟨by decide, by decide, by decide,
    posFromIndex_indexFromPos_roundtrip [['a', 'b'], ['c', 'd']] ['\x0a']
      ⟨1, 1⟩ (by decide) (by decide) (by decide)⟩

/-! ## Helper lemmas: the bisection loop -/

theorem bsearchLoop_exit {pairs : List (ℕ × ℕ)} {pos : ℕ} {lb ub si comp : ℤ}
    (h : ¬ lb ≤ ub) :
    ∀ fuel, bsearchLoop pairs pos fuel lb ub si comp = .inl (si, comp) := by
  intro fuel
  cases fuel with
  | zero => rfl
  | succ fuel => simp only [bsearchLoop, if_neg h]

/-- Post-condition of the bisection loop: an `.inr` is an exact hit;
an `.inl (si, comp)` pins `searchIndex` down as the last index whose
start is below `pos` (`comp = -1`) or the first index whose start is
above `pos` (`comp = 1`), with no exact hit anywhere. -/
def bsearchOut (pairs : List (ℕ × ℕ)) (pos : ℕ) : (ℤ × ℤ) ⊕ ℕ → Prop
  | .inr k => k < pairs.length ∧ getMatchIndexStart pairs k = pos
  | .inl (si, comp) =>
    (comp = -1 ∧ 0 ≤ si ∧ si < (pairs.length : ℤ) ∧
      ∀ j : ℕ, j < pairs.length →
        ((j : ℤ) ≤ si → getMatchIndexStart pairs j < pos) ∧
        (si < (j : ℤ) → pos < getMatchIndexStart pairs j)) ∨
    (comp = 1 ∧ 0 ≤ si ∧ si < (pairs.length : ℤ) ∧
      ∀ j : ℕ, j < pairs.length →
        ((j : ℤ) < si → getMatchIndexStart pairs j < pos) ∧
        (si ≤ (j : ℤ) → pos < getMatchIndexStart pairs j))

theorem bsearchLoop_spec {pairs : List (ℕ × ℕ)} {pos : ℕ}
    (hsorted : TableSorted pairs) :
    ∀ fuel (lb ub : ℤ), 0 ≤ lb → ub < (pairs.length : ℤ) → lb ≤ ub →
      (ub - lb).toNat < fuel →
      (∀ j : ℕ, j < pairs.length → (j : ℤ) < lb →
        getMatchIndexStart pairs j < pos) →
      (∀ j : ℕ, j < pairs.length → ub < (j : ℤ) →
        pos < getMatchIndexStart pairs j) →
      ∀ si0 comp0,
        bsearchOut pairs pos (bsearchLoop pairs pos fuel lb ub si0 comp0) := by
  intro fuel
  induction fuel with
  | zero => intro lb ub h0 hub hle hfuel; omega
  | succ fuel ih =>
    intro lb ub h0 hub hle hfuel H1 H2 si0 comp0
    rw [bsearchLoop, if_pos hle]
    set si' : ℕ := (ub + lb).toNat / 2 with hsi
    have hrange : lb ≤ (si' : ℤ) ∧ (si' : ℤ) ≤ ub := by
      rw [hsi]
      omega
    have hsilen : si' < pairs.length := by omega
    by_cases hceq : getMatchIndexStart pairs si' = pos
    · have hc : _compareMatchResultToPos (getMatchIndexStart pairs si') pos = 0 := by
        unfold _compareMatchResultToPos
        rw [if_pos hceq]
      rw [hc, if_pos rfl]
      exact ⟨hsilen, hceq⟩
    · by_cases hclt : getMatchIndexStart pairs si' < pos
      · have hc : _compareMatchResultToPos (getMatchIndexStart pairs si') pos = -1 := by
          unfold _compareMatchResultToPos
          rw [if_neg hceq, if_pos hclt]
        rw [hc, if_neg (by decide), if_pos rfl]
        have H1' : ∀ j : ℕ, j < pairs.length → (j : ℤ) < (si' : ℤ) + 1 →
            getMatchIndexStart pairs j < pos := by
          intro j hj hjsi
          rcases Nat.lt_or_ge j si' with hlt | hge
          · exact lt_trans (hsorted si' hsilen j hlt) hclt
          · have hj' : j = si' := by omega
            rw [hj']
            exact hclt
        by_cases hnext : (si' : ℤ) + 1 ≤ ub
        · exact ih ((si' : ℤ) + 1) ub (by omega) hub hnext (by omega) H1' H2
            (si' : ℤ) (-1)
        · rw [bsearchLoop_exit hnext fuel]
          left
          refine ⟨rfl, by omega, by omega, fun j hj => ⟨fun hjle => ?_, fun hjgt => ?_⟩⟩
          · exact H1' j hj (by omega)
          · exact H2 j hj (by omega)
      · have hcgt : pos < getMatchIndexStart pairs si' := by omega
        have hc : _compareMatchResultToPos (getMatchIndexStart pairs si') pos = 1 := by
          unfold _compareMatchResultToPos
          rw [if_neg hceq, if_neg (by omega)]
        rw [hc, if_neg (by decide), if_neg (by decide)]
        have H2' : ∀ j : ℕ, j < pairs.length → (si' : ℤ) - 1 < (j : ℤ) →
            pos < getMatchIndexStart pairs j := by
          intro j hj hjsi
          rcases Nat.lt_or_ge si' j with hlt | hge
          · exact lt_trans hcgt (hsorted j hj si' hlt)
          · have hj' : j = si' := by omega
            rw [hj']
            exact hcgt
        by_cases hnext : lb ≤ (si' : ℤ) - 1
        · exact ih lb ((si' : ℤ) - 1) h0 (by omega) hnext (by omega) H1 H2'
            (si' : ℤ) 1
        · rw [bsearchLoop_exit hnext fuel]
          right
          refine ⟨rfl, by omega, by omega, fun j hj => ⟨fun hjle => ?_, fun hjgt => ?_⟩⟩
          · exact H1 j hj (by omega)
          · exact H2' j hj (by omega)

/-! ## C5 theorem -/

/-- C5: for every non-empty match table with strictly ascending start
offsets and every offset value, `_findResultIndexNearPos` returns the
index of an exact start-offset hit when one exists; otherwise in the
forward direction it returns the smallest `k` with `starts[k] ≥
offset` (`none` when every start is below the offset), and in the
reverse direction the largest `k` with `starts[k] < offset` (`none`
when every start is at or above the offset). -/
theorem findResultIndexNearPos_correct (pairs : List (ℕ × ℕ)) (pos : ℕ)
    (hsorted : TableSorted pairs) (hne : pairs ≠ []) :
    (∀ k, k < pairs.length → getMatchIndexStart pairs k = pos →
      _findResultIndexNearPos pairs pos false = some k ∧
      _findResultIndexNearPos pairs pos true = some k) ∧
    ((∀ k, k < pairs.length → getMatchIndexStart pairs k ≠ pos) →
      ((∃ k, k < pairs.length ∧ pos ≤ getMatchIndexStart pairs k) →
        ∃ k, _findResultIndexNearPos pairs pos false = some k ∧
          k < pairs.length ∧ pos ≤ getMatchIndexStart pairs k ∧
          ∀ j, j < k → getMatchIndexStart pairs j < pos) ∧
      ((∀ k, k < pairs.length → getMatchIndexStart pairs k < pos) →
        _findResultIndexNearPos pairs pos false = none) ∧
      ((∃ k, k < pairs.length ∧ getMatchIndexStart pairs k < pos) →
        ∃ k, _findResultIndexNearPos pairs pos true = some k ∧
          k < pairs.length ∧ getMatchIndexStart pairs k < pos ∧
          ∀ j, k < j → j < pairs.length → pos ≤ getMatchIndexStart pairs j) ∧
      ((∀ k, k < pairs.length → pos ≤ getMatchIndexStart pairs k) →
        _findResultIndexNearPos pairs pos true = none)) := by
  have hlen : 0 < pairs.length := List.length_pos.mpr hne
  have hE : pairs.isEmpty = false := by
    cases pairs with
    | nil => exact absurd rfl hne
    | cons a t => rfl
  have hspec := @bsearchLoop_spec pairs pos hsorted (pairs.length + 1) 0
    ((pairs.length : ℤ) - 1) (by omega) (by omega) (by omega) (by omega)
    (fun j hj hj0 => absurd hj0 (by omega))
    (fun j hj hjgt => absurd hjgt (by omega)) 0 0
  have hunf : ∀ reverse, _findResultIndexNearPos pairs pos reverse =
      match bsearchLoop pairs pos (pairs.length + 1) 0
          ((pairs.length : ℤ) - 1) 0 0 with
      | .inr k => some k
      | .inl (si, comp) =>
        if adjustSearchIndex reverse si comp < 0 ∨
            (pairs.length : ℤ) ≤ adjustSearchIndex reverse si comp then none
        else some (adjustSearchIndex reverse si comp).toNat := by
    intro reverse
    unfold _findResultIndexNearPos
    rw [hE]
    rfl
  rcases hres : bsearchLoop pairs pos (pairs.length + 1) 0
      ((pairs.length : ℤ) - 1) 0 0 with ⟨si, comp⟩ | k
  · -- loop exited without an exact hit
    rw [hres] at hspec
    have hvals : ∀ reverse, _findResultIndexNearPos pairs pos reverse =
        if adjustSearchIndex reverse si comp < 0 ∨
            (pairs.length : ℤ) ≤ adjustSearchIndex reverse si comp then none
        else some (adjustSearchIndex reverse si comp).toNat := by
      intro reverse
      rw [hunf reverse, hres]
    rcases hspec with ⟨hcomp, hsi0, hsilt, hchar⟩ | ⟨hcomp, hsi0, hsilt, hchar⟩
    · -- comp = -1: starts[si] < pos, everything above si is > pos
      subst hcomp
      have hadjf : adjustSearchIndex false si (-1) = si + 1 := by
        unfold adjustSearchIndex
        rw [if_neg (by simp), if_pos (by simp)]
      have hadjr : adjustSearchIndex true si (-1) = si := by
        unfold adjustSearchIndex
        rw [if_neg (by simp), if_neg (by simp)]
      have hnohit : ∀ k, k < pairs.length → getMatchIndexStart pairs k ≠ pos := by
        intro k hk
        rcases le_or_lt (k : ℤ) si with hle2 | hgt2
        · exact ne_of_lt ((hchar k hk).1 hle2)
        · exact ne_of_gt ((hchar k hk).2 hgt2)
      refine ⟨fun k hk hkpos => absurd hkpos (hnohit k hk), fun _ => ?_⟩
      refine ⟨fun ⟨k, hk, hkpos⟩ => ?_, fun hall => ?_, fun ⟨k, hk, hkpos⟩ => ?_,
        fun hall => ?_⟩
      · -- forward, some start ≥ pos exists: returns si+1
        have hsik : si + 1 ≤ (k : ℤ) := by
          by_contra hcon
          exact absurd hkpos (not_le.mpr ((hchar k hk).1 (by omega)))
        have hlt2 : si + 1 < pairs.length := by omega
        refine ⟨(si + 1).toNat, ?_, by omega, ?_, ?_⟩
        · rw [hvals false, hadjf, if_neg (by omega)]
        · have := (hchar (si + 1).toNat (by omega)).2 (by omega)
          omega
        · intro j hj
          exact (hchar j (by omega)).1 (by omega)
      · -- forward, every start < pos: si = length-1, si+1 out of bounds
        have hsieq : si = (pairs.length : ℤ) - 1 := by
          by_contra hcon
          have hlt2 : (si + 1).toNat < pairs.length := by omega
          have := (hchar (si + 1).toNat hlt2).2 (by omega)
          have := hall (si + 1).toNat hlt2
          omega
        rw [hvals false, hadjf, if_pos (by omega)]
      · -- reverse, some start < pos exists: returns si
        refine ⟨si.toNat, ?_, by omega, ?_, ?_⟩
        · rw [hvals true, hadjr, if_neg (by omega)]
        · have := (hchar si.toNat (by omega)).1 (by omega)
          omega
        · intro j hj1 hj2
          have := (hchar j hj2).2 (by omega)
          omega
      · -- reverse, every start ≥ pos: impossible since starts[si] < pos
        have := (hchar si.toNat (by omega)).1 (by omega)
        have := hall si.toNat (by omega)
        omega
    · -- comp = 1: starts[si] > pos, everything below si is < pos
      subst hcomp
      have hadjf : adjustSearchIndex false si 1 = si := by
        unfold adjustSearchIndex
        rw [if_neg (by simp), if_neg (by simp)]
      have hadjr : adjustSearchIndex true si 1 = si - 1 := by
        unfold adjustSearchIndex
        rw [if_pos (by simp), if_neg (by simp)]
      have hnohit : ∀ k, k < pairs.length → getMatchIndexStart pairs k ≠ pos := by
        intro k hk
        rcases lt_or_le (k : ℤ) si with hle2 | hgt2
        · exact ne_of_lt ((hchar k hk).1 hle2)
        · exact ne_of_gt ((hchar k hk).2 hgt2)
      refine ⟨fun k hk hkpos => absurd hkpos (hnohit k hk), fun _ => ?_⟩
      refine ⟨fun ⟨k, hk, hkpos⟩ => ?_, fun hall => ?_, fun ⟨k, hk, hkpos⟩ => ?_,
        fun hall => ?_⟩
      · -- forward, some start ≥ pos exists: returns si itself
        refine ⟨si.toNat, ?_, by omega, ?_, ?_⟩
        · rw [hvals false, hadjf, if_neg (by omega)]
        · have := (hchar si.toNat (by omega)).2 (by omega)
          omega
        · intro j hj
          exact (hchar j (by omega)).1 (by omega)
      · -- forward, every start < pos: impossible since starts[si] > pos
        have := (hchar si.toNat (by omega)).2 (by omega)
        have := hall si.toNat (by omega)
        omega
      · -- reverse, some start < pos exists: returns si-1 (si > 0)
        have hksi : (k : ℤ) < si := by
          by_contra hcon
          exact absurd hkpos (not_lt.mpr (le_of_lt ((hchar k hk).2 (by omega))))
        refine ⟨(si - 1).toNat, ?_, by omega, ?_, ?_⟩
        · rw [hvals true, hadjr, if_neg (by omega)]
        · have := (hchar (si - 1).toNat (by omega)).1 (by omega)
          omega
        · intro j hj1 hj2
          have := (hchar j hj2).2 (by omega)
          omega
      · -- reverse, every start ≥ pos: si = 0, si-1 out of bounds
        have hsieq : si = 0 := by
          by_contra hcon
          have hlt2 : (si - 1).toNat < pairs.length := by omega
          have := (hchar (si - 1).toNat hlt2).1 (by omega)
          have := hall (si - 1).toNat hlt2
          omega
        rw [hvals true, hadjr, if_pos (by omega)]
  · -- exact hit inside the loop
    rw [hres] at hspec
    obtain ⟨hklen, hkpos⟩ := hspec
    have hvals : ∀ reverse, _findResultIndexNearPos pairs pos reverse = some k := by
      intro reverse
      rw [hunf reverse, hres]
    have huniq : ∀ k', k' < pairs.length → getMatchIndexStart pairs k' = pos →
        k' = k := by
      intro k' hk' hk'pos
      rcases Nat.lt_trichotomy k' k with hlt | heq | hgt
      · have := hsorted k hklen k' hlt
        omega
      · exact heq
      · have := hsorted k' hk' k hgt
        omega
    refine ⟨fun k' hk' hk'pos => ?_, fun hnohit => ?_⟩
    · rw [huniq k' hk' hk'pos]
      exact ⟨hvals false, hvals true⟩
    · exact absurd hkpos (hnohit k hklen)

/-- Witness for C5 on the table `[(1,2),(4,5)]` with offset 3. -/
theorem findResultIndexNearPos_correct_witness :
    TableSorted [(1, 2), (4, 5)] ∧ ([(1, 2), (4, 5)] : List (ℕ × ℕ)) ≠ [] ∧
    ((∃ k, k < 2 ∧ 3 ≤ getMatchIndexStart [(1, 2), (4, 5)] k) →
      ∃ k, _findResultIndexNearPos [(1, 2), (4, 5)] 3 false = some k ∧
        k < 2 ∧ 3 ≤ getMatchIndexStart [(1, 2), (4, 5)] k ∧
        ∀ j, j < k → getMatchIndexStart [(1, 2), (4, 5)] j < 3) :=
  ⟨by decide, by decide,
    ((findResultIndexNearPos_correct [(1, 2), (4, 5)] 3 (by decide)
      (by decide)).2 (by decide)).1⟩

/-! ## Helper lemmas: `execFrom` (the modelled `regex.exec`) -/

theorem execFromAux_eq_some {r : ℕ → Option ℕ} {i k s e : ℕ}
    (h : execFromAux r i k = some (s, e)) :
    i ≤ s ∧ s < i + k ∧ r s = some e ∧ ∀ q, i ≤ q → q < s → r q = none := by
  induction k generalizing i with
  | zero => simp [execFromAux] at h
  | succ k ih =>
    rw [execFromAux] at h
    rcases hri : r i with _ | e0 <;> rw [hri] at h
    · obtain ⟨h1, h2, h3, h4⟩ := ih h
      refine ⟨by omega, by omega, h3, fun q hq1 hq2 => ?_⟩
      rcases Nat.eq_or_lt_of_le hq1 with rfl | hq
      · exact hri
      · exact h4 q hq hq2
    · simp only [Option.some.injEq, Prod.mk.injEq] at h
      obtain ⟨rfl, rfl⟩ := h
      exact ⟨le_refl _, by omega, hri, fun q hq1 hq2 => by omega⟩

theorem execFromAux_eq_some_of {r : ℕ → Option ℕ} {i k s e : ℕ}
    (h1 : i ≤ s) (h2 : s < i + k) (h3 : r s = some e)
    (h4 : ∀ q, i ≤ q → q < s → r q = none) :
    execFromAux r i k = some (s, e) := by
  induction k generalizing i with
  | zero => omega
  | succ k ih =>
    rw [execFromAux]
    rcases Nat.eq_or_lt_of_le h1 with rfl | hlt
    · rw [h3]
    · rw [h4 i (le_refl _) hlt]
      exact ih (by omega) (by omega) fun q hq1 hq2 => h4 q (by omega) hq2

theorem execFromAux_eq_none {r : ℕ → Option ℕ} {i k : ℕ}
    (h : execFromAux r i k = none) :
    ∀ q, i ≤ q → q < i + k → r q = none := by
  induction k generalizing i with
  | zero => omega
  | succ k ih =>
    rw [execFromAux] at h
    rcases hri : r i with _ | e0 <;> rw [hri] at h
    · intro q hq1 hq2
      rcases Nat.eq_or_lt_of_le hq1 with rfl | hq
      · exact hri
      · exact ih h q hq (by omega)
    · exact absurd h (by simp)

theorem execFromAux_eq_none_of {r : ℕ → Option ℕ} {i k : ℕ}
    (h : ∀ q, i ≤ q → q < i + k → r q = none) :
    execFromAux r i k = none := by
  induction k generalizing i with
  | zero => rfl
  | succ k ih =>
    rw [execFromAux, h i (le_refl _) (by omega)]
    exact ih fun q hq1 hq2 => h q (by omega) (by omega)

theorem execFrom_eq_some {r : ℕ → Option ℕ} {n i s e : ℕ}
    (h : execFrom r n i = some (s, e)) :
    i ≤ s ∧ s ≤ n ∧ r s = some e ∧ ∀ q, i ≤ q → q < s → r q = none := by
  obtain ⟨h1, h2, h3, h4⟩ := execFromAux_eq_some h
  exact ⟨h1, by omega, h3, h4⟩

theorem execFrom_eq_some_of {r : ℕ → Option ℕ} {n i s e : ℕ}
    (h1 : i ≤ s) (h2 : s ≤ n) (h3 : r s = some e)
    (h4 : ∀ q, i ≤ q → q < s → r q = none) :
    execFrom r n i = some (s, e) :=
  execFromAux_eq_some_of h1 (by omega) h3 h4

theorem execFrom_eq_none {r : ℕ → Option ℕ} {n i : ℕ}
    (h : execFrom r n i = none) :
    ∀ q, i ≤ q → q ≤ n → r q = none := by
  intro q hq1 hq2
  exact execFromAux_eq_none h q hq1 (by omega)

theorem execFrom_eq_none_of {r : ℕ → Option ℕ} {n i : ℕ}
    (h : ∀ q, i ≤ q → q ≤ n → r q = none) :
    execFrom r n i = none :=
  execFromAux_eq_none_of fun q hq1 hq2 => h q hq1 (by omega)

theorem execFrom_of_gt {r : ℕ → Option ℕ} {n i : ℕ} (h : n < i) :
    execFrom r n i = none := by
  unfold execFrom
  rw [Nat.sub_eq_zero_of_le (by omega)]
  rfl

/-- The continuation `lastIndex` strictly advances and stays within
`n + 1` (well-formedness of the regex). -/
theorem bumpEnd_progress {r : ℕ → Option ℕ} {n i s e : ℕ} (hwf : RegexWF n r)
    (h : execFrom r n i = some (s, e)) :
    i < bumpEnd (s, e) ∧ s < bumpEnd (s, e) ∧ bumpEnd (s, e) ≤ n + 1 := by
  obtain ⟨h1, h2, h3, _⟩ := execFrom_eq_some h
  obtain ⟨he1, he2⟩ := hwf.bounds h2 h3
  unfold bumpEnd
  by_cases hz : s = e <;> simp only [hz, if_true, if_false] <;> omega

/-! ## Helper lemmas: the scan loop -/

theorem scanLoop_fuel_irrel {r : ℕ → Option ℕ} {n sei : ℕ}
    (hwf : RegexWF n r) :
    ∀ fuel fuel' limit i, n + 1 - i ≤ fuel → n + 1 - i ≤ fuel' →
      scanLoopFuel r n sei limit i fuel = scanLoopFuel r n sei limit i fuel' := by
  intro fuel
  induction fuel with
  | zero =>
    intro fuel' limit i hf hf'
    have hi : n < i := by omega
    cases fuel' with
    | zero => rfl
    | succ fuel' =>
      simp only [scanLoopFuel, execFrom_of_gt hi]
  | succ fuel ih =>
    intro fuel' limit i hf hf'
    cases fuel' with
    | zero =>
      have hi : n < i := by omega
      simp only [scanLoopFuel, execFrom_of_gt hi]
    | succ fuel' =>
      simp only [scanLoopFuel]
      rcases hex : execFrom r n i with _ | z
      · rfl
      · obtain ⟨s, e⟩ := z
        obtain ⟨hp1, _, hp3⟩ := bumpEnd_progress hwf hex
        by_cases hb : limit ≤ 1 ∨ sei < bumpEnd (s, e)
        · simp only [hb, if_true]
        · simp only [hb, if_false]
          rw [ih fuel' (limit - 1) (bumpEnd (s, e)) (by omega) (by omega)]

theorem scanLoop_length {r : ℕ → Option ℕ} {n sei : ℕ} (hwf : RegexWF n r) :
    ∀ fuel limit i,
      (scanLoopFuel r n sei limit i fuel).length ≤ n + 1 - i := by
  intro fuel
  induction fuel with
  | zero => intro limit i; simp [scanLoopFuel]
  | succ fuel ih =>
    intro limit i
    simp only [scanLoopFuel]
    rcases hex : execFrom r n i with _ | z
    · simp
    · obtain ⟨s, e⟩ := z
      obtain ⟨hi, hs, _, _⟩ := execFrom_eq_some hex
      obtain ⟨hp1, _, hp3⟩ := bumpEnd_progress hwf hex
      by_cases hb : limit ≤ 1 ∨ sei < bumpEnd (s, e)
      · simp only [hb, if_true, List.length_cons, List.length_nil]
        omega
      · simp only [hb, if_false, List.length_cons]
        have := ih (limit - 1) (bumpEnd (s, e))
        omega

/-! ## C7 theorem -/

/-- C7: for every document (length `n`) and every well-formed regex —
including patterns producing zero-width matches such as `".*"` or
`"(?=x)"` — the scan loop of `_searchAndAddResultsToArray` terminates:
its fuel-driven embedding is independent of the fuel once the fuel
covers the remaining offsets (`lastIndex` strictly advances by at
least 1, because a zero-width match bumps it explicitly), and the scan
started at offset `i` stores at most `n + 1 - i` matches — at most
`|text| + 1` from offset 0. -/
theorem scan_zero_width_progress (r : ℕ → Option ℕ) (n limit sei i : ℕ)
    (hwf : RegexWF n r) :
    (∀ fuel fuel', n + 1 - i ≤ fuel → n + 1 - i ≤ fuel' →
      scanLoopFuel r n sei limit i fuel = scanLoopFuel r n sei limit i fuel') ∧
    (searchAndAddResultsToArray r n limit sei i).length ≤ n + 1 - i := by
  refine ⟨fun fuel fuel' hf hf' => scanLoop_fuel_irrel hwf fuel fuel' limit i hf hf', ?_⟩
  exact scanLoop_length hwf (n + 1) _ i

/-- Witness for C7: the zero-width-capable `".*"` on `"xxxxx"`. -/
theorem scan_zero_width_progress_witness :
    RegexWF 5 dotStarOnXs ∧
    ((∀ fuel fuel', 5 + 1 - 0 ≤ fuel → 5 + 1 - 0 ≤ fuel' →
      scanLoopFuel dotStarOnXs 5 5 10000000 0 fuel =
        scanLoopFuel dotStarOnXs 5 5 10000000 0 fuel') ∧
    (searchAndAddResultsToArray dotStarOnXs 5 10000000 5 0).length ≤ 5 + 1 - 0) :=
  ⟨by decide, scan_zero_width_progress dotStarOnXs 5 10000000 5 0 (by decide)⟩

/-! ## Helper lemmas: scan output structure -/

theorem scanLoop_mem {r : ℕ → Option ℕ} {n sei : ℕ} (hwf : RegexWF n r) :
    ∀ fuel limit i z, z ∈ scanLoopFuel r n sei limit i fuel →
      i ≤ z.1 ∧ z.1 ≤ n ∧ r z.1 = some z.2 := by
  intro fuel
  induction fuel with
  | zero => intro limit i z hz; simp [scanLoopFuel] at hz
  | succ fuel ih =>
    intro limit i z hz
    rw [scanLoopFuel] at hz
    rcases hex : execFrom r n i with _ | w
    · rw [hex] at hz; simp at hz
    · obtain ⟨s, e⟩ := w
      rw [hex] at hz
      obtain ⟨hi, hs, hr, _⟩ := execFrom_eq_some hex
      obtain ⟨hp1, hp2, hp3⟩ := bumpEnd_progress hwf hex
      by_cases hb : limit ≤ 1 ∨ sei < bumpEnd (s, e) <;>
        simp only [hb, if_true, if_false, List.mem_cons, List.not_mem_nil,
          or_false] at hz
      · obtain rfl := hz
        exact ⟨hi, hs, hr⟩
      · rcases hz with rfl | hz
        · exact ⟨hi, hs, hr⟩
        · obtain ⟨h1, h2, h3⟩ := ih (limit - 1) (bumpEnd (s, e)) z hz
          exact ⟨by omega, h2, h3⟩

theorem scanLoop_chain {r : ℕ → Option ℕ} {n sei : ℕ} (hwf : RegexWF n r) :
    ∀ fuel limit i,
      List.Chain' (fun x y : ℕ × ℕ => x.1 < y.1)
        (scanLoopFuel r n sei limit i fuel) := by
  intro fuel
  induction fuel with
  | zero => intro limit i; simp [scanLoopFuel]
  | succ fuel ih =>
    intro limit i
    rw [scanLoopFuel]
    rcases hex : execFrom r n i with _ | w
    · simp
    · obtain ⟨s, e⟩ := w
      obtain ⟨hp1, hp2, hp3⟩ := bumpEnd_progress hwf hex
      by_cases hb : limit ≤ 1 ∨ sei < bumpEnd (s, e) <;>
        simp only [hb, if_true, if_false]
      · simp
      · rw [List.chain'_cons']
        refine ⟨fun y hy => ?_, ih (limit - 1) (bumpEnd (s, e))⟩
        have hmem : y ∈ scanLoopFuel r n sei (limit - 1) (bumpEnd (s, e)) fuel :=
          List.mem_of_mem_head? hy
        have := (scanLoop_mem hwf fuel (limit - 1) (bumpEnd (s, e)) y hmem).1
        omega

theorem scanLoop_exec_src {r : ℕ → Option ℕ} {n sei : ℕ} :
    ∀ fuel limit i, i ≤ sei →
      ∀ z ∈ scanLoopFuel r n sei limit i fuel,
        ∃ l₀, l₀ ≤ sei ∧ execFrom r n l₀ = some z := by
  intro fuel
  induction fuel with
  | zero => intro limit i hi z hz; simp [scanLoopFuel] at hz
  | succ fuel ih =>
    intro limit i hi z hz
    rw [scanLoopFuel] at hz
    rcases hex : execFrom r n i with _ | w
    · rw [hex] at hz; simp at hz
    · obtain ⟨s, e⟩ := w
      rw [hex] at hz
      by_cases hb : limit ≤ 1 ∨ sei < bumpEnd (s, e) <;>
        simp only [hb, if_true, if_false, List.mem_cons, List.not_mem_nil,
          or_false] at hz
      · obtain rfl := hz
        exact ⟨i, hi, hex⟩
      · rcases hz with rfl | hz
        · exact ⟨i, hi, hex⟩
        · exact ih (limit - 1) (bumpEnd (s, e)) (by omega) z hz

theorem scanLoop_head {r : ℕ → Option ℕ} {n sei limit i fuel s e : ℕ}
    (hex : execFrom r n i = some (s, e)) (hfuel : 1 ≤ fuel) :
    ∃ tl, scanLoopFuel r n sei limit i fuel = (s, e) :: tl := by
  cases fuel with
  | zero => omega
  | succ fuel =>
    rw [scanLoopFuel, hex]
    by_cases hb : limit ≤ 1 ∨ sei < bumpEnd (s, e) <;>
      simp only [hb, if_true, if_false]
    · exact ⟨[], rfl⟩
    · exact ⟨_, rfl⟩

theorem scanLoop_nil {r : ℕ → Option ℕ} {n sei limit i fuel : ℕ}
    (hex : execFrom r n i = none) :
    scanLoopFuel r n sei limit i fuel = [] := by
  cases fuel with
  | zero => rfl
  | succ fuel => rw [scanLoopFuel, hex]

theorem scanLoop_cons_eq {r : ℕ → Option ℕ} {n sei limit i fuel s e : ℕ}
    (hex : execFrom r n i = some (s, e)) :
    scanLoopFuel r n sei limit i (fuel + 1) =
      if limit ≤ 1 ∨ sei < bumpEnd (s, e) then [(s, e)]
      else (s, e) :: scanLoopFuel r n sei (limit - 1) (bumpEnd (s, e)) fuel := by
  rw [scanLoopFuel, hex]

theorem searchAndAdd_eq_scanLoop (r : ℕ → Option ℕ) (n limit0 sei0 i : ℕ) :
    searchAndAddResultsToArray r n limit0 sei0 i =
      scanLoopFuel r n (if sei0 = 0 then n else sei0)
        (if limit0 = 0 then 10000000 else limit0) i (n + 1) := rfl

theorem searchAndAdd_eq_scanLoop0 (r : ℕ → Option ℕ) (n limit0 i : ℕ) :
    searchAndAddResultsToArray r n limit0 0 i =
      scanLoopFuel r n n (if limit0 = 0 then 10000000 else limit0) i (n + 1) :=
  rfl

theorem searchAndAdd_eq_scanLoop_pos (r : ℕ → Option ℕ) (n limit0 sei0 i : ℕ)
    (h : sei0 ≠ 0) :
    searchAndAddResultsToArray r n limit0 sei0 i =
      scanLoopFuel r n sei0 (if limit0 = 0 then 10000000 else limit0) i (n + 1) := by
  rw [searchAndAdd_eq_scanLoop, if_neg h]

/-! ## Helper lemmas: the ideal match list `matchesFrom` -/

theorem range'_glue (a b c : ℕ) (hab : a ≤ b) (hbc : b ≤ c) :
    List.range' a (b - a) ++ List.range' b (c - b) = List.range' a (c - a) := by
  have h := List.range'_append a (b - a) (c - b) 1
  simp only [Nat.one_mul, Nat.mul_one] at h
  rw [Nat.add_sub_cancel' hab] at h
  rw [h]
  congr 1
  omega

theorem matchesFrom_hi {r : ℕ → Option ℕ} {n i : ℕ} (h : n < i) :
    matchesFrom r n i = [] := by
  unfold matchesFrom
  rw [Nat.sub_eq_zero_of_le (by omega)]
  rfl

theorem matchesFrom_mem {r : ℕ → Option ℕ} {n i : ℕ} {z : ℕ × ℕ}
    (hz : z ∈ matchesFrom r n i) : i ≤ z.1 ∧ z.1 ≤ n ∧ r z.1 = some z.2 := by
  unfold matchesFrom at hz
  obtain ⟨p, hp, hmap⟩ := List.mem_filterMap.mp hz
  rw [List.mem_range'_1] at hp
  rcases hrp : r p with _ | e <;> rw [hrp] at hmap
  · simp at hmap
  · simp only [Option.map_some', Option.some.injEq] at hmap
    obtain rfl := hmap.symm
    exact ⟨by omega, by omega, hrp⟩

theorem matchesFrom_self_lt {r : ℕ → Option ℕ} {n i : ℕ} (hwf : RegexWF n r) :
    ∀ z ∈ matchesFrom r n i, z.1 < bumpEnd z := by
  intro z hz
  obtain ⟨h1, h2, h3⟩ := matchesFrom_mem hz
  obtain ⟨h4, h5⟩ := hwf.bounds h2 h3
  unfold bumpEnd
  by_cases hz2 : z.1 = z.2 <;> simp only [hz2, if_true, if_false] <;> omega

theorem matchesFrom_nil {r : ℕ → Option ℕ} {n i : ℕ}
    (h : execFrom r n i = none) : matchesFrom r n i = [] := by
  unfold matchesFrom
  refine List.filterMap_eq_nil.mpr fun p hp => ?_
  rw [List.mem_range'_1] at hp
  rw [execFrom_eq_none h p (by omega) (by omega)]
  rfl

theorem matchesFrom_length_le (r : ℕ → Option ℕ) (n i : ℕ) :
    (matchesFrom r n i).length ≤ n + 1 - i := by
  unfold matchesFrom
  calc (List.filterMap _ _).length ≤ (List.range' i (n + 1 - i)).length :=
        List.length_filterMap_le _ _
    _ = n + 1 - i := List.length_range' ..

theorem matchesFrom_cons {r : ℕ → Option ℕ} {n i s e : ℕ} (hwf : RegexWF n r)
    (hno : NonOverlap n r) (hex : execFrom r n i = some (s, e)) :
    matchesFrom r n i = (s, e) :: matchesFrom r n (bumpEnd (s, e)) := by
  obtain ⟨his, hsn, hrs, hgap⟩ := execFrom_eq_some hex
  obtain ⟨hse1, hse2⟩ := hwf.bounds hsn hrs
  obtain ⟨hb1, hb2, hb3⟩ := bumpEnd_progress hwf hex
  have hliv : bumpEnd (s, e) = if s = e then e + 1 else e := rfl
  have hglue2 : List.range' i (s - i) ++ List.range' s (bumpEnd (s, e) - s) =
      List.range' i (bumpEnd (s, e) - i) :=
    range'_glue i s (bumpEnd (s, e)) his (by omega)
  have hglue1 : List.range' i (bumpEnd (s, e) - i) ++
      List.range' (bumpEnd (s, e)) (n + 1 - bumpEnd (s, e)) =
      List.range' i (n + 1 - i) :=
    range'_glue i (bumpEnd (s, e)) (n + 1) (by omega) (by omega)
  unfold matchesFrom
  rw [← hglue1, ← hglue2, List.filterMap_append, List.filterMap_append]
  have hpart1 : (List.range' i (s - i)).filterMap
      (fun p => (r p).map fun e' => (p, e')) = [] := by
    refine List.filterMap_eq_nil.mpr fun p hp => ?_
    rw [List.mem_range'_1] at hp
    rw [hgap p (by omega) (by omega)]
    rfl
  have hmids : s - i ≤ s := by omega
  have hrange_mid : List.range' s (bumpEnd (s, e) - s) =
      s :: List.range' (s + 1) (bumpEnd (s, e) - s - 1) := by
    have hlen : bumpEnd (s, e) - s = (bumpEnd (s, e) - s - 1) + 1 := by omega
    conv_lhs => rw [hlen]
    rw [List.range'_succ]
  have hpart2 : (List.range' s (bumpEnd (s, e) - s)).filterMap
      (fun p => (r p).map fun e' => (p, e')) = [(s, e)] := by
    rw [hrange_mid, List.filterMap_cons]
    rw [hrs]
    simp only [Option.map_some']
    congr 1
    refine List.filterMap_eq_nil.mpr fun p hp => ?_
    rw [List.mem_range'_1] at hp
    rcases hrp : r p with _ | e'
    · rfl
    · exfalso
      have hple : p ≤ n := by omega
      have hnop := hno s (by omega) p (by omega) (by omega)
      rw [hrs, hrp] at hnop
      simp only [pairOK, decide_eq_true_eq] at hnop
      by_cases hz : s = e <;> rw [hliv] at hp <;>
        simp only [hz, if_true, if_false] at hp <;> omega
  rw [hpart1, hpart2, List.nil_append]
  rfl

theorem matchesFrom_chain {r : ℕ → Option ℕ} {n : ℕ} (hwf : RegexWF n r)
    (hno : NonOverlap n r) :
    ∀ k i, n + 1 - i ≤ k →
      List.Chain' (fun x y : ℕ × ℕ => bumpEnd x ≤ y.1) (matchesFrom r n i) := by
  intro k
  induction k with
  | zero =>
    intro i h
    rw [matchesFrom_hi (by omega)]
    simp
  | succ k ih =>
    intro i h
    rcases hex : execFrom r n i with _ | ⟨s, e⟩
    · rw [matchesFrom_nil hex]
      simp
    · rw [matchesFrom_cons hwf hno hex, List.chain'_cons']
      obtain ⟨hb1, hb2, hb3⟩ := bumpEnd_progress hwf hex
      refine ⟨fun y hy => ?_, ih (bumpEnd (s, e)) (by omega)⟩
      exact (matchesFrom_mem (List.mem_of_mem_head? hy)).1

theorem scanLoop_eq_matchesFrom {r : ℕ → Option ℕ} {n : ℕ} (hwf : RegexWF n r)
    (hno : NonOverlap n r) :
    ∀ fuel limit i, (matchesFrom r n i).length < limit → n + 1 - i ≤ fuel →
      scanLoopFuel r n n limit i fuel = matchesFrom r n i := by
  intro fuel
  induction fuel with
  | zero =>
    intro limit i hlim hfuel
    rw [matchesFrom_hi (by omega)]
    rfl
  | succ fuel ih =>
    intro limit i hlim hfuel
    rcases hex : execFrom r n i with _ | ⟨s, e⟩
    · rw [scanLoop_nil hex, matchesFrom_nil hex]
    · have hcons := matchesFrom_cons hwf hno hex
      obtain ⟨hb1, hb2, hb3⟩ := bumpEnd_progress hwf hex
      rw [scanLoop_cons_eq hex]
      rw [hcons] at hlim ⊢
      simp only [List.length_cons] at hlim
      have hnl : ¬ limit ≤ 1 := by omega
      by_cases hsei : n < bumpEnd (s, e)
      · rw [if_pos (Or.inr hsei), matchesFrom_hi (by omega)]
      · rw [if_neg (not_or.mpr ⟨hnl, hsei⟩)]
        congr 1
        exact ih (limit - 1) (bumpEnd (s, e)) (by omega) (by omega)

theorem scanLoop_eq_takeThrough {r : ℕ → Option ℕ} {n : ℕ} (hwf : RegexWF n r)
    (hno : NonOverlap n r) :
    ∀ fuel limit sei i, (matchesFrom r n i).length < limit → n + 1 - i ≤ fuel →
      scanLoopFuel r n sei limit i fuel =
        takeThrough (fun z => decide (sei < bumpEnd z)) (matchesFrom r n i) := by
  intro fuel
  induction fuel with
  | zero =>
    intro limit sei i hlim hfuel
    rw [matchesFrom_hi (by omega)]
    rfl
  | succ fuel ih =>
    intro limit sei i hlim hfuel
    rcases hex : execFrom r n i with _ | ⟨s, e⟩
    · rw [scanLoop_nil hex, matchesFrom_nil hex]
      rfl
    · have hcons := matchesFrom_cons hwf hno hex
      obtain ⟨hb1, hb2, hb3⟩ := bumpEnd_progress hwf hex
      rw [scanLoop_cons_eq hex]
      rw [hcons] at hlim ⊢
      simp only [List.length_cons] at hlim
      have hnl : ¬ limit ≤ 1 := by omega
      unfold takeThrough
      by_cases hsei : sei < bumpEnd (s, e)
      · rw [if_pos (Or.inr hsei), if_pos (by simpa using hsei)]
      · rw [if_neg (not_or.mpr ⟨hnl, hsei⟩), if_neg (by simpa using hsei)]
        congr 1
        exact ih (limit - 1) sei (bumpEnd (s, e)) (by omega) (by omega)

theorem matchesFrom_eq_filter {r : ℕ → Option ℕ} {n s : ℕ} (hs : s ≤ n + 1) :
    matchesFrom r n s =
      (matchesFrom r n 0).filter fun z => decide (s ≤ z.1) := by
  unfold matchesFrom
  rw [List.filter_filterMap]
  have hglue : List.range' 0 s ++ List.range' s (n + 1 - s) =
      List.range' 0 (n + 1) := by
    have h := range'_glue 0 s (n + 1) (by omega) hs
    simpa using h
  simp only [Nat.sub_zero]
  rw [← hglue, List.filterMap_append]
  have h1 : (List.range' 0 s).filterMap
      (fun p => ((r p).map fun e => (p, e)).filter fun z => decide (s ≤ z.1)) =
      [] := by
    refine List.filterMap_eq_nil.mpr fun p hp => ?_
    rw [List.mem_range'_1] at hp
    rcases hrp : r p with _ | e
    · rfl
    · simp only [Option.map_some', Option.filter]
      rw [if_neg (by simp; omega)]
  rw [h1, List.nil_append]
  refine List.filterMap_congr fun p hp => ?_
  rw [List.mem_range'_1] at hp
  rcases hrp : r p with _ | e
  · rfl
  · simp only [Option.map_some', Option.filter]
    rw [if_pos (by simp; omega)]

/-! ## Helper lemmas: the join-edge dedup -/

theorem dedup_first_nil (second : List (ℕ × ℕ)) :
    removeIfDuplicateResultOnEdge [] second = second := rfl

theorem takeThrough_cons (p : α → Bool) (x : α) (xs : List α) :
    takeThrough p (x :: xs) = if p x then [x] else x :: takeThrough p xs := rfl

theorem takeThrough_ne_nil {p : α → Bool} {l : List α} (h : l ≠ []) :
    takeThrough p l ≠ [] := by
  cases l with
  | nil => exact absurd rfl h
  | cons x xs =>
    rw [takeThrough_cons]
    split <;> simp

theorem dedup_cons {P T : List (ℕ × ℕ)} (z : ℕ × ℕ) (hP : P ≠ []) (hT : T ≠ []) :
    removeIfDuplicateResultOnEdge P (z :: T) =
      z :: removeIfDuplicateResultOnEdge P T := by
  rcases P with _ | ⟨p0, P'⟩
  · exact absurd rfl hP
  rcases T with _ | ⟨t0, T'⟩
  · exact absurd rfl hT
  have hL := List.getLast?_eq_getLast (t0 :: T') (by simp)
  simp only [removeIfDuplicateResultOnEdge, List.head?_cons,
    List.getLast?_cons_cons, hL]
  by_cases he : p0 = (t0 :: T').getLast (by simp) <;>
    simp only [he, if_true, if_false, List.dropLast_cons₂]

theorem chain_tail_ge {z : ℕ × ℕ} {M' : List (ℕ × ℕ)}
    (hchain : List.Chain' (fun x y : ℕ × ℕ => bumpEnd x ≤ y.1) (z :: M'))
    (hself : ∀ y ∈ M', y.1 < bumpEnd y) :
    ∀ y ∈ M', bumpEnd z ≤ y.1 := by
  induction M' generalizing z with
  | nil => intro y hy; simp at hy
  | cons m0 M'' ih =>
    intro y hy
    have hzm : bumpEnd z ≤ m0.1 := (List.chain'_cons.mp hchain).1
    rcases List.mem_cons.mp hy with rfl | hy'
    · exact hzm
    · have hm0self : m0.1 < bumpEnd m0 := hself m0 (by simp)
      have := ih (List.chain'_cons.mp hchain).2
        (fun y hy => hself y (List.mem_cons_of_mem m0 hy)) y hy'
      omega

/-- The crux of the two-phase equivalence: for a match list `M` whose
consecutive matches respect the resumption point (`bumpEnd x ≤ y.1`),
joining the cap-`s` prefix-with-straddler (what phase two collects)
with the `start ≥ s` suffix (what phase one collects), after the
join-edge dedup, restores exactly `M`. -/
theorem dedup_join : ∀ (M : List (ℕ × ℕ)) (s : ℕ),
    List.Chain' (fun x y : ℕ × ℕ => bumpEnd x ≤ y.1) M →
    (∀ z ∈ M, z.1 < bumpEnd z) →
    removeIfDuplicateResultOnEdge (M.filter fun z => decide (s ≤ z.1))
        (takeThrough (fun z => decide (s < bumpEnd z)) M) ++
      (M.filter fun z => decide (s ≤ z.1)) = M := by
  intro M
  induction M with
  | nil => intro s _ _; rfl
  | cons z M' ih =>
    intro s hchain hself
    have hzself : z.1 < bumpEnd z := hself z (by simp)
    have htail_ge : ∀ y ∈ M', bumpEnd z ≤ y.1 :=
      chain_tail_ge hchain fun y hy => hself y (List.mem_cons_of_mem z hy)
    by_cases hpz : s < bumpEnd z
    · -- phase two stops at (and includes) z
      have hT : takeThrough (fun w => decide (s < bumpEnd w)) (z :: M') =
          [z] := by
        rw [takeThrough_cons, if_pos (by simpa using hpz)]
      rw [hT]
      by_cases hzs : s ≤ z.1
      · -- z is kept by the filter as well: it is the join-edge duplicate
        have hfM' : M'.filter (fun w => decide (s ≤ w.1)) = M' :=
          List.filter_eq_self.mpr fun y hy => by
            have := htail_ge y hy
            simp only [decide_eq_true_eq]
            omega
        rw [List.filter_cons_of_pos (by simpa using hzs), hfM']
        have hd : removeIfDuplicateResultOnEdge (z :: M') [z] = [] := by
          simp only [removeIfDuplicateResultOnEdge, List.head?_cons,
            List.getLast?_singleton, if_pos rfl]
          rfl
        rw [hd, List.nil_append]
      · -- z starts before s: only phase two holds it, no duplicate
        have hzs' : z.1 < s := by omega
        have hfM' : M'.filter (fun w => decide (s ≤ w.1)) = M' :=
          List.filter_eq_self.mpr fun y hy => by
            have := htail_ge y hy
            simp only [decide_eq_true_eq]
            omega
        rw [List.filter_cons_of_neg (by simpa using hzs), hfM']
        rcases hM' : M' with _ | ⟨m0, M''⟩
        · rw [dedup_first_nil]
          rfl
        · have hm0 : bumpEnd z ≤ m0.1 := by
            refine htail_ge m0 ?_
            rw [hM']
            simp
          have hne : m0 ≠ z := by
            intro hcon
            rw [hcon] at hm0
            omega
          have hd : removeIfDuplicateResultOnEdge (m0 :: M'') [z] = [z] := by
            simp only [removeIfDuplicateResultOnEdge, List.head?_cons,
              List.getLast?_singleton]
            rw [if_neg hne]
          rw [hd]
          rfl
    · -- phase two keeps going past z, and z is not kept by the filter
      have hT : takeThrough (fun w => decide (s < bumpEnd w)) (z :: M') =
          z :: takeThrough (fun w => decide (s < bumpEnd w)) M' := by
        rw [takeThrough_cons, if_neg (by simpa using hpz)]
      have hzs' : z.1 < s := by omega
      rw [hT, List.filter_cons_of_neg (by simp; omega)]
      have IH := ih s hchain.tail
        (fun y hy => hself y (List.mem_cons_of_mem z hy))
      by_cases hM'nil : M' = []
      · subst hM'nil
        rfl
      · have hTne : takeThrough (fun w => decide (s < bumpEnd w)) M' ≠ [] :=
          takeThrough_ne_nil hM'nil
        by_cases hPnil : M'.filter (fun w => decide (s ≤ w.1)) = []
        · rw [hPnil] at IH ⊢
          rw [dedup_first_nil] at IH ⊢
          simp only [List.append_nil] at IH ⊢
          rw [IH]
        · rw [dedup_cons z hPnil hTne]
          simp only [List.cons_append]
          rw [IH]

/-! ## C2 theorems -/

/-- C2 counterexample: for the document `"aaa"` and the regex `"aa"`
(matches start at offsets 0 and 1, overlapping), the two-phase scan
from offset 1 yields `[(0,2), (1,3)]` while the single scan from
offset 0 yields `[(0,2)]` — phase one, resuming at `lastIndex = 1`,
finds the overlapping match `(1,3)` that the scan from 0 skips (its
first match moves `lastIndex` to 2).  The equivalence as claimed, for
*every* regex, is false. -/
theorem two_phase_ne_single_scan :
    createSearchResults aaOnAaa 3 0 1 ≠
      searchAndAddResultsToArray aaOnAaa 3 0 0 0 := by
  decide

/-- C2 (amended): for every document text, regex query and start
offset `s`, when `maxResults` is effectively unbounded **and the
regex's matches are mutually non-overlapping** (any two match starts
`p < q` satisfy `end(p) ≤ q`), the two-phase scan — phase one from `s`
to the end, phase two from 0 capped at `s`, duplicate at the join edge
removed, then `secondary ++ primary` — produces exactly the same
ordered sequence of `(start, end)` pairs as a single scan of the whole
document from offset 0. -/
theorem two_phase_scan_equiv (r : ℕ → Option ℕ) (n maxResults0 s : ℕ)
    (hwf : RegexWF n r) (hno : NonOverlap n r) (hs : s ≤ n)
    (hmax : n + 1 < if maxResults0 = 0 then 10000000 else maxResults0) :
    createSearchResults r n maxResults0 s =
      searchAndAddResultsToArray r n maxResults0 0 0 := by
  have hfull : searchAndAddResultsToArray r n maxResults0 0 0 =
      matchesFrom r n 0 := by
    rw [searchAndAdd_eq_scanLoop0]
    refine scanLoop_eq_matchesFrom hwf hno (n + 1) _ 0 ?_ (by omega)
    have := matchesFrom_length_le r n 0
    omega
  have hprimary : searchAndAddResultsToArray r n maxResults0 0 s =
      matchesFrom r n s := by
    rw [searchAndAdd_eq_scanLoop0]
    refine scanLoop_eq_matchesFrom hwf hno (n + 1) _ s ?_ (by omega)
    have := matchesFrom_length_le r n s
    omega
  rcases Nat.eq_zero_or_pos s with rfl | hspos
  · unfold createSearchResults
    rw [if_neg (by simp)]
  · have hsec : searchAndAddResultsToArray r n maxResults0 s 0 =
        takeThrough (fun z => decide (s < bumpEnd z)) (matchesFrom r n 0) := by
      rw [searchAndAdd_eq_scanLoop_pos r n maxResults0 s 0 (by omega)]
      refine scanLoop_eq_takeThrough hwf hno (n + 1) _ s 0 ?_ (by omega)
      have := matchesFrom_length_le r n 0
      omega
    unfold createSearchResults
    rw [if_pos ⟨hspos, by
      rw [hprimary]
      have := matchesFrom_length_le r n s
      omega⟩]
    rw [hprimary, hsec, hfull, matchesFrom_eq_filter (by omega)]
    exact dedup_join (matchesFrom r n 0) s
      (matchesFrom_chain hwf hno (n + 1) 0 (by omega))
      (matchesFrom_self_lt hwf)

/-- Witness for C2 (amended): the non-overlapping matches `(0,1)` and
`(2,3)` on a document of length 3, two-phase from offset 2. -/
theorem two_phase_scan_equiv_witness :
    RegexWF 3 disjointPairs ∧ NonOverlap 3 disjointPairs ∧ (2 : ℕ) ≤ 3 ∧
    (3 + 1 < if (0 : ℕ) = 0 then 10000000 else 0) ∧
    createSearchResults disjointPairs 3 0 2 =
      searchAndAddResultsToArray disjointPairs 3 0 0 0 :=
  ⟨by decide, by decide, by decide, by decide,
    two_phase_scan_equiv disjointPairs 3 0 2 (by decide) (by decide)
      (by decide) (by decide)⟩

/-! ## C4 theorem -/
/-- C4: after any scan — two-phase concatenation and `maxResults`
truncation included — the stored match table is in strictly ascending
order of start offset. -/
theorem createSearchResults_sorted (r : ℕ → Option ℕ) (n maxResults0 s : ℕ)
    (hwf : RegexWF n r) :
    List.Chain' (fun x y : ℕ × ℕ => x.1 < y.1)
      (createSearchResults r n maxResults0 s) := by
  have hchainP : List.Chain' (fun x y : ℕ × ℕ => x.1 < y.1)
      (searchAndAddResultsToArray r n maxResults0 0 s) := by
    rw [searchAndAdd_eq_scanLoop]
    exact scanLoop_chain hwf (n + 1) _ s
  have hchainS : List.Chain' (fun x y : ℕ × ℕ => x.1 < y.1)
      (searchAndAddResultsToArray r n maxResults0 s 0) := by
    rw [searchAndAdd_eq_scanLoop]
    exact scanLoop_chain hwf (n + 1) _ 0
  unfold createSearchResults
  by_cases hcond : 0 < s ∧ (searchAndAddResultsToArray r n maxResults0 0 s).length <
      (if maxResults0 = 0 then 10000000 else maxResults0)
  swap
  · rw [if_neg hcond]
    exact hchainP
  have hspos : 0 < s := hcond.1
  rw [if_pos hcond]
  generalize hprim : searchAndAddResultsToArray r n maxResults0 0 s = primary
    at hchainP ⊢
  generalize hsec2 : searchAndAddResultsToArray r n maxResults0 s 0 = secondary
    at hchainS ⊢
  rcases primary with _ | ⟨⟨c, d⟩, ptl⟩
  · -- primary empty: the dedup leaves secondary alone, nothing appended
    simp only [removeIfDuplicateResultOnEdge, List.head?_nil, List.append_nil]
    exact hchainS
  by_cases hSnil : secondary = []
  · -- secondary empty: dedup returns the empty secondary
    subst hSnil
    simp only [removeIfDuplicateResultOnEdge, List.getLast?_nil,
      List.head?_cons, List.nil_append]
    exact hchainP
  -- both tables non-empty
  have hexecP : execFrom r n s = some (c, d) := by
    rw [searchAndAdd_eq_scanLoop0] at hprim
    rcases hex : execFrom r n s with _ | ⟨s0, e0⟩
    · rw [scanLoop_nil hex] at hprim
      simp at hprim
    · obtain ⟨tl, htl⟩ := @scanLoop_head r n n
        (if maxResults0 = 0 then 10000000 else maxResults0) s (n + 1) s0 e0
        hex (by omega)
      rw [htl] at hprim
      simp only [List.cons.injEq] at hprim
      rw [hprim.1]
  have hc_ge : s ≤ c := (execFrom_eq_some hexecP).1
  rw [searchAndAdd_eq_scanLoop_pos r n maxResults0 s 0 (by omega)] at hsec2
  have hzlast := List.getLast?_eq_getLast secondary hSnil
  have hdecomp := List.dropLast_concat_getLast hSnil
  have hzmem : secondary.getLast hSnil ∈ secondary := List.getLast_mem hSnil
  have hzmem2 : secondary.getLast hSnil ∈ scanLoopFuel r n s
      (if maxResults0 = 0 then 10000000 else maxResults0) 0 (n + 1) := by
    rw [hsec2]
    exact hzmem
  obtain ⟨hz0, hz1, hz2⟩ := @scanLoop_mem r n s hwf (n + 1)
    (if maxResults0 = 0 then 10000000 else maxResults0) 0
    (secondary.getLast hSnil) hzmem2
  obtain ⟨l₀, hl₀, hl₀exec⟩ := @scanLoop_exec_src r n s (n + 1)
    (if maxResults0 = 0 then 10000000 else maxResults0) 0 (by omega)
    (secondary.getLast hSnil) hzmem2
  have hkey : secondary.getLast hSnil = (c, d) ∨
      (secondary.getLast hSnil).1 < c := by
    rcases lt_or_le (secondary.getLast hSnil).1 s with hlt | hge
    · right; omega
    · left
      have hnogap : ∀ q, s ≤ q → q < (secondary.getLast hSnil).1 →
          r q = none := fun q hq1 hq2 =>
        (execFrom_eq_some hl₀exec).2.2.2 q (by omega) hq2
      have heq : execFrom r n s = some (secondary.getLast hSnil) :=
        execFrom_eq_some_of hge hz1 hz2 hnogap
      rw [hexecP] at heq
      exact (Option.some_inj.mp heq).symm
  rcases hkey with heq | hlt
  · -- duplicate on the join edge: the last of secondary is popped
    have hdedup : removeIfDuplicateResultOnEdge ((c, d) :: ptl) secondary =
        secondary.dropLast := by
      simp only [removeIfDuplicateResultOnEdge, List.head?_cons, hzlast]
      rw [heq, if_pos rfl]
    rw [hdedup, List.chain'_append]
    have hsplit := hchainS
    rw [← hdecomp, List.chain'_append] at hsplit
    refine ⟨hsplit.1, hchainP, ?_⟩
    intro x hx y hy
    simp only [List.head?_cons, Option.mem_some_iff] at hy
    obtain rfl := hy.symm
    have hlast := hsplit.2.2 x hx (secondary.getLast hSnil) (by simp)
    have hzc : (secondary.getLast hSnil).1 = c := by rw [heq]
    omega
  · -- no duplicate: the tables concatenate directly
    have hdedup : removeIfDuplicateResultOnEdge ((c, d) :: ptl) secondary =
        secondary := by
      simp only [removeIfDuplicateResultOnEdge, List.head?_cons, hzlast]
      rw [if_neg ?hne]
      case hne =>
        intro hcon
        rw [← hcon] at hlt
        simp at hlt
    rw [hdedup, List.chain'_append]
    refine ⟨hchainS, hchainP, ?_⟩
    intro x hx y hy
    simp only [List.head?_cons, Option.mem_some_iff] at hy
    obtain rfl := hy.symm
    rw [hzlast] at hx
    obtain rfl := Option.mem_some_iff.mp hx
    exact hlt

/-- Witness for C4: the two-phase scan of `"aaa"` with `"aa"` from
offset 1. -/
theorem createSearchResults_sorted_witness :
    RegexWF 3 aaOnAaa ∧
    List.Chain' (fun x y : ℕ × ℕ => x.1 < y.1)
      (createSearchResults aaOnAaa 3 0 1) :=
  ⟨by decide, createSearchResults_sorted aaOnAaa 3 0 1 (by decide)⟩

/-! ## C1 theorem -/

/-- C1: on the document `"ab\ncd"` with the single match `(0,1)` in
the table and no current match, `find(reverse)` seeds from
`(lineCount, 0)` (offset 6) and the binary search correctly locates
match number 0 as the nearest match in the reverse direction — but
`find` guards the result with `if (matchIndex)`, and the number `0` is
falsy in JavaScript, so the seeded match is discarded; the fallback
`_findPrevious` then steps from the sentinel and also returns `false`.
`find(reverse)` returns no match even though match number 0 exists in
the search direction, contradicting the claim (and `find`'s own
documented purpose). -/
theorem find_reverse_misses_match_zero :
    exampleCursorC1.table ≠ [] ∧
    getCurrentMatch exampleCursorC1 = none ∧
    _findResultIndexNearPos exampleCursorC1.table
      (_indexFromPos exampleCursorC1.L
        (_startingPositionForFind exampleCursorC1 true).1) true = some 0 ∧
    (cursorFind exampleCursorC1 true).2 = none := by
  decide

/-! ## C6 theorem -/

/-- C6: re-setting the same source pattern `"abc"` with `ignoreCase`
flipped from `false` to `true` recompiles the regex with different
flags, but `_setQuery` compares only `source`, so `resultsCurrent`
stays `true` — the stale case-sensitive match table keeps being served
for a case-insensitive query, contradicting the claim (and the spec's
invariant `resultsCurrent ⟹ indexer reflects ignoreCase`).
`atOccurrence` is reset as claimed. -/
theorem setQuery_flag_change_keeps_results_current :
    exampleCursorC6.query = some ⟨"abc", false⟩ ∧
    (setSearchDocumentAndQuery exampleCursorC6 exampleigcProps).query =
      some ⟨"abc", true⟩ ∧
    (setSearchDocumentAndQuery exampleCursorC6 exampleigcProps).resultsCurrent
      = true ∧
    (setSearchDocumentAndQuery exampleCursorC6 exampleigcProps).atOccurrence
      = false := by
  decide

/-! ## C10 theorem -/

theorem setQuery_frame (c : Cursor) (q : String) :
    (_setQuery c q).table = c.table ∧ (_setQuery c q).cgn = c.cgn ∧
    (_setQuery c q).L = c.L ∧ (_setQuery c q).atOccurrence = c.atOccurrence ∧
    (_setQuery c q).ignoreCase = c.ignoreCase ∧ (_setQuery c q).doc = c.doc ∧
    (_setQuery c q).currentPosition = c.currentPosition ∧
    (_setQuery c q).maxResults = c.maxResults := by
  simp only [_setQuery]
  rcases hq : c.query with _ | old
  · simp
  · by_cases h : old.source ≠ (_convertToRegularExpression q c.ignoreCase).source <;>
      simp [h]

/-- C10: `setSearchDocumentAndQuery` leaves a stored field unchanged
whenever the corresponding property is absent or falsy — `ignoreCase:
false` never resets a previously-true `ignoreCase`, `maxResults: 0`
leaves the previous `maxResults`, an absent or empty `searchQuery`
leaves `query` and `resultsCurrent`, absent `document`/`position`
leave `doc`/`currentPosition`, fields not mentioned in the properties
object (the match table, group cursor, line index) always keep their
prior values, and only `atOccurrence` is unconditionally reset to
`false`. -/
theorem setSearchDocumentAndQuery_frame (c : Cursor) (p : SearchProperties) :
    (setSearchDocumentAndQuery c p).atOccurrence = false ∧
    (setSearchDocumentAndQuery c p).table = c.table ∧
    (setSearchDocumentAndQuery c p).cgn = c.cgn ∧
    (setSearchDocumentAndQuery c p).L = c.L ∧
    (p.ignoreCase = false →
      (setSearchDocumentAndQuery c p).ignoreCase = c.ignoreCase) ∧
    (p.maxResults = 0 →
      (setSearchDocumentAndQuery c p).maxResults = c.maxResults) ∧
    (p.document = none → (setSearchDocumentAndQuery c p).doc = c.doc) ∧
    (p.position = none →
      (setSearchDocumentAndQuery c p).currentPosition = c.currentPosition) ∧
    ((p.searchQuery = none ∨ p.searchQuery = some "") →
      (setSearchDocumentAndQuery c p).query = c.query ∧
      (setSearchDocumentAndQuery c p).resultsCurrent = c.resultsCurrent) := by
  obtain ⟨d, sq, pos, ic, mr⟩ := p
  rcases d with _ | d <;> rcases pos with _ | pos <;> cases ic <;>
    by_cases hmr : mr = 0 <;> rcases sq with _ | q <;>
    simp_all [setSearchDocumentAndQuery, _setPos] <;>
    by_cases hq0 : q = "" <;>
    simp_all [setQuery_frame]

/-- Witness for C10: an all-falsy properties object leaves every
field (other than `atOccurrence`) of a concrete cursor unchanged. -/
theorem setSearchDocumentAndQuery_frame_witness :
    (setSearchDocumentAndQuery exampleCursorC6 quietProps).ignoreCase =
      exampleCursorC6.ignoreCase ∧
    (setSearchDocumentAndQuery exampleCursorC6 quietProps).maxResults =
      exampleCursorC6.maxResults ∧
    (setSearchDocumentAndQuery exampleCursorC6 quietProps).doc =
      exampleCursorC6.doc ∧
    (setSearchDocumentAndQuery exampleCursorC6 quietProps).currentPosition =
      exampleCursorC6.currentPosition ∧
    (setSearchDocumentAndQuery exampleCursorC6 quietProps).query =
      exampleCursorC6.query ∧
    (setSearchDocumentAndQuery exampleCursorC6 quietProps).resultsCurrent =
      exampleCursorC6.resultsCurrent := by
  have h := setSearchDocumentAndQuery_frame exampleCursorC6 quietProps
  exact ⟨h.2.2.2.2.1 rfl, h.2.2.2.2.2.1 rfl, h.2.2.2.2.2.2.1 rfl,
    h.2.2.2.2.2.2.2.1 rfl, (h.2.2.2.2.2.2.2.2 (Or.inl rfl)).1,
    (h.2.2.2.2.2.2.2.2 (Or.inl rfl)).2⟩

end BracketsSearch
